import Mathlib

/-!
Verification of the rxing barcode library's core data structures against its
natural-language specification.  The Rust sources under scrutiny are shallowly
embedded: structs become Lean structures, machine integers become `Nat` (with
explicit `% 2 ^ w` at the points where wrap-around can occur), fallible
functions return `Except Exceptions`, and imperative loops become folds or
structural recursions.  Identifier names follow the Rust source wherever Lean
permits.
-/

namespace Rxing

/-- Error kinds of the library (`Exceptions` in the Rust source).  Each variant
carries its diagnostic string, mirroring the Rust enum's payloads. -/
inductive Exceptions where
  | notFound (msg : String)
  | illegalArgument (msg : String)
  | format (msg : String)
  | checksum (msg : String)
  | illegalState (msg : String)
  | unsupportedOperation (msg : String)
  | parse (msg : String)
  deriving DecidableEq, Repr

/-- Modelled from the spec: the word size of the packed bit containers.  The
constant `BIT_FIELD_BASE_BITS` itself lives outside the provided sources, but
`bit_matrix.rs`'s own header comment describes the backing store as an array of
32-bit ints, and the spec (§2) calls the containers word-packed. -/
def BASE_BITS : Nat := 32

/-- Modelled from the spec: `BIT_FIELD_SHIFT_BITS`, the mask used to reduce a
column index modulo the word size (`x & BASE_SHIFT` with `BASE_SHIFT = 31`). -/
def BASE_SHIFT : Nat := 31

/-- Packed 2-D bit matrix (src/common/bit_matrix.rs).  `bits` is the row-major
word array; each row starts on a fresh word. -/
structure BitMatrix where
  width : Nat
  height : Nat
  row_size : Nat
  bits : List Nat
  deriving DecidableEq, Repr

namespace BitMatrix

/-- `BitMatrix::new`: fails with IllegalArgument when a dimension is < 1,
otherwise builds a zeroed matrix with `row_size = ⌈width / BASE_BITS⌉`. -/
def new (width height : Nat) : Except Exceptions BitMatrix :=
  if width < 1 ∨ height < 1 then
    .error (.illegalArgument "Both dimensions must be greater than 0")
  else
    .ok { width := width, height := height,
          row_size := (width + BASE_BITS - 1) / BASE_BITS,
          bits := List.replicate ((width + BASE_BITS - 1) / BASE_BITS * height) 0 }

/-- `BitMatrix::get_offset`: the index of the word holding bit `(x, y)`. -/
def get_offset (m : BitMatrix) (y x : Nat) : Nat :=
  y * m.row_size + x / BASE_BITS

/-- `BitMatrix::get`: returns `false` when the computed word offset falls past
the end of the word array, otherwise extracts bit `x & BASE_SHIFT` of the
word.  Note the guard checks only the word offset, not `x < width`. -/
def get (m : BitMatrix) (x y : Nat) : Bool :=
  let offset := m.get_offset y x
  if offset ≥ m.bits.length then
    false
  else
    ((m.bits.getD offset 0 >>> (x &&& BASE_SHIFT)) &&& 1) != 0

/-- `BitMatrix::set`: sets bit `(x, y)` to true.  The Rust code indexes the
word array directly (panicking if the offset is out of range); `List.set` is a
no-op in that case, and every use below keeps the offset in range. -/
def set (m : BitMatrix) (x y : Nat) : BitMatrix :=
  let offset := m.get_offset y x
  { m with bits := m.bits.set offset (m.bits.getD offset 0 ||| (1 <<< (x &&& BASE_SHIFT))) }

end BitMatrix

/-- Value of a little-endian list of bits (bit `i` of the result is element
`i` of the list); used to pack a bit sequence into machine words. -/
def natFromBitsLE (bs : List Bool) : Nat :=
  bs.foldr (fun b acc => b.toNat + 2 * acc) 0

/-- Modelled from the spec: `BitArray` (its source file `common/bit_array.rs`
is not under src/).  The spec (§3) describes it as a "sequence of bits with
efficient word-aligned bulk set/get and reverse"; we model the container as
its abstract bit sequence of length `size`. -/
structure BitArray where
  size : Nat
  bits : List Bool
  deriving DecidableEq, Repr

namespace BitArray

/-- Modelled from the spec: `BitArray::with_size`, the all-false sequence. -/
def with_size (size : Nat) : BitArray :=
  ⟨size, List.replicate size false⟩

/-- Modelled from the spec: word-aligned bulk set — overwrite the bits at
positions `[pos, pos + BASE_BITS)` (clipped to the sequence length) with the
bits of `word`. -/
def setBulk (a : BitArray) (pos : Nat) (word : Nat) : BitArray :=
  ⟨a.size, (List.range a.size).map fun i =>
    if pos ≤ i ∧ i < pos + BASE_BITS then word.testBit (i - pos) else a.bits.getD i false⟩

/-- Modelled from the spec: `BitArray::reverse`, reversing the bit sequence. -/
def reverse (a : BitArray) : BitArray :=
  ⟨a.size, a.bits.reverse⟩

/-- Modelled from the spec: `BitArray::getBitArray`, the packed word array
backing the sequence (bit `i` lives in word `i / BASE_BITS` at position
`i % BASE_BITS`; the padding of the final word is zero). -/
def getBitArray (a : BitArray) : List Nat :=
  (List.range ((a.size + BASE_BITS - 1) / BASE_BITS)).map fun w =>
    natFromBitsLE ((a.bits.drop (w * BASE_BITS)).take BASE_BITS)

end BitArray

namespace BitMatrix

/-- `BitMatrix::getRow`: copy row `y` out into a `BitArray` word by word. -/
def getRow (m : BitMatrix) (y : Nat) : BitArray :=
  (List.range m.row_size).foldl
    (fun rw x => rw.setBulk (x * BASE_BITS) (m.bits.getD (y * m.row_size + x) 0))
    (BitArray.with_size m.width)

/-- `BitMatrix::setRow`: overwrite the `row_size` words of row `y` with the
first `row_size` words of the given `BitArray`. -/
def setRow (m : BitMatrix) (y : Nat) (row : BitArray) : BitMatrix :=
  { m with bits :=
      m.bits.take (y * m.row_size) ++ row.getBitArray.take m.row_size ++
        m.bits.drop (y * m.row_size + m.row_size) }

/-- `BitMatrix::rotate180`: for each row pair `(i, height-1-i)`, reverse both
rows and swap them. -/
def rotate180 (m : BitMatrix) : BitMatrix :=
  (List.range ((m.height + 1) / 2)).foldl
    (fun m i =>
      let topRow := (m.getRow i).reverse
      let bottomRowIndex := m.height - 1 - i
      let bottomRow := (m.getRow bottomRowIndex).reverse
      let m := m.setRow i bottomRow
      m.setRow bottomRowIndex topRow)
    m

/-- `BitMatrix::rotate90`: build a fresh `height × width` word array and, for
every set source bit `(x, y)`, set bit `(y, newHeight-1-x)` of the target. -/
def rotate90 (m : BitMatrix) : BitMatrix :=
  let newWidth := m.height
  let newHeight := m.width
  let newRowSize := (newWidth + BASE_BITS - 1) / BASE_BITS
  let newBits :=
    (List.range m.height).foldl
      (fun nb y =>
        (List.range m.width).foldl
          (fun nb x =>
            if ((m.bits.getD (m.get_offset y x) 0 >>> (x &&& BASE_SHIFT)) &&& 1) != 0 then
              let newOffset := (newHeight - 1 - x) * newRowSize + y / BASE_BITS
              nb.set newOffset (nb.getD newOffset 0 ||| (1 <<< (y &&& BASE_SHIFT)))
            else nb)
          nb)
      (List.replicate (newRowSize * newHeight) 0)
  { width := newWidth, height := newHeight, row_size := newRowSize, bits := newBits }

/-- `BitMatrix::rotate`: dispatch on `degrees % 360`; 270 is performed as a
90-degree rotation followed by a 180-degree rotation. -/
def rotate (m : BitMatrix) (degrees : Nat) : Except Exceptions BitMatrix :=
  match degrees % 360 with
  | 0 => .ok m
  | 90 => .ok m.rotate90
  | 180 => .ok m.rotate180
  | 270 => .ok m.rotate90.rotate180
  | _ => .error (.illegalArgument "degrees must be a multiple of 0, 90, 180, or 270")

/-- Dimension bookkeeping every matrix produced by `new` satisfies: positive
dimensions, `row_size = ⌈width / BASE_BITS⌉`, and a backing word list of
exactly `row_size * height` words. -/
def WF (m : BitMatrix) : Prop :=
  1 ≤ m.width ∧ 1 ≤ m.height ∧
    m.row_size = (m.width + BASE_BITS - 1) / BASE_BITS ∧
    m.bits.length = m.row_size * m.height

instance (m : BitMatrix) : Decidable m.WF := by unfold WF; infer_instance

end BitMatrix

/-! Generic helper lemmas about lists, folds and bits, shared by the proofs
below. -/

lemma bne_and_one_eq_testBit (w s : Nat) : (((w >>> s) &&& 1) != 0) = w.testBit s := by
  simp [Nat.testBit, Nat.and_comm]

lemma and_31_eq_mod (x : Nat) : x &&& 31 = x % 32 := by
  have h := Nat.and_pow_two_sub_one_eq_mod x 5
  norm_num at h
  exact h

lemma and_base_shift_eq_mod (x : Nat) : x &&& BASE_SHIFT = x % 32 := by
  simpa [BASE_SHIFT] using and_31_eq_mod x

lemma getD_map_range {α : Type} (n : Nat) (f : Nat → α) (i : Nat) (d : α) :
    ((List.range n).map f).getD i d = if i < n then f i else d := by
  rcases Nat.lt_or_ge i n with h | h
  · rw [List.getD_eq_getElem?_getD, List.getElem?_map, List.getElem?_range h]
    simp [h]
  · rw [List.getD_eq_getElem?_getD, List.getElem?_map]
    rw [List.getElem?_eq_none (by simpa using h)]
    simp [Nat.not_lt_of_ge h]

lemma getD_set_nat (l : List Nat) (i v k : Nat) (d : Nat) :
    (l.set i v).getD k d = if i = k ∧ i < l.length then v else l.getD k d := by
  rw [List.getD_eq_getElem?_getD, List.getElem?_set, List.getD_eq_getElem?_getD]
  by_cases hik : i = k
  · subst hik
    by_cases hlen : i < l.length
    · simp [hlen]
    · simp [hlen, List.getElem?_eq_none (Nat.le_of_not_lt hlen)]
  · simp [hik]

lemma mul_add_lt_unique {n a b c d : Nat} (hb : b < n) (hd : d < n)
    (h : a * n + b = c * n + d) : a = c ∧ b = d := by
  have hn : 0 < n := Nat.lt_of_le_of_lt (Nat.zero_le b) hb
  have ha : (a * n + b) / n = a := by
    rw [Nat.mul_comm, Nat.mul_add_div hn, Nat.div_eq_of_lt hb, Nat.add_zero]
  have hc : (c * n + d) / n = c := by
    rw [Nat.mul_comm, Nat.mul_add_div hn, Nat.div_eq_of_lt hd, Nat.add_zero]
  have hac : a = c := by rw [← ha, ← hc, h]
  rw [hac] at h
  exact ⟨hac, by omega⟩

lemma foldl_invariant {α β : Type} (P : α → Prop) (f : α → β → α) (l : List β) (init : α)
    (h0 : P init) (hstep : ∀ a b, b ∈ l → P a → P (f a b)) : P (l.foldl f init) := by
  induction l generalizing init with
  | nil => exact h0
  | cons b t ih =>
      exact ih (f init b) (hstep init b (List.mem_cons_self _ _) h0)
        (fun a b' hb' ha => hstep a b' (List.mem_cons_of_mem _ hb') ha)

lemma foldl_foldl_flatMap {α : Type} (f : α → Nat × Nat → α) (ys xs : List Nat) (init : α) :
    ys.foldl (fun a y => xs.foldl (fun a x => f a (y, x)) a) init
      = (ys.flatMap fun y => xs.map fun x => (y, x)).foldl f init := by
  induction ys generalizing init with
  | nil => rfl
  | cons y t ih =>
      simp only [List.flatMap_cons, List.foldl_append, List.foldl_cons, List.foldl_map]
      rw [← ih]

lemma testBit_foldl_orUpdate (ps : List (Nat × Nat)) (guard : Nat × Nat → Bool)
    (idx sh : Nat × Nat → Nat) (init : List Nat)
    (hidx : ∀ p ∈ ps, idx p < init.length) (k j : Nat) :
    (((ps.foldl (fun nb p =>
        if guard p then nb.set (idx p) (nb.getD (idx p) 0 ||| (1 <<< sh p)) else nb)
        init).getD k 0).testBit j = true)
      ↔ ((init.getD k 0).testBit j = true ∨
          ∃ p ∈ ps, guard p = true ∧ idx p = k ∧ sh p = j) := by
  induction ps generalizing init with
  | nil => simp
  | cons p t ih =>
      simp only [List.foldl_cons]
      have hlen : (if guard p then
          init.set (idx p) (init.getD (idx p) 0 ||| (1 <<< sh p)) else init).length
          = init.length := by
        split <;> simp
      rw [ih _ (by intro q hq; rw [hlen]; exact hidx q (List.mem_cons_of_mem _ hq))]
      constructor
      · rintro (hbit | ⟨q, hq, hg, hik, hsj⟩)
        · by_cases hg : guard p = true
          · rw [if_pos hg, getD_set_nat] at hbit
            by_cases hk : idx p = k ∧ idx p < init.length
            · rw [if_pos hk] at hbit
              rw [Nat.one_shiftLeft, Nat.testBit_or] at hbit
              rcases Bool.or_eq_true_iff.mp hbit with h1 | h2
              · exact Or.inl (hk.1 ▸ h1)
              · right
                refine ⟨p, List.mem_cons_self _ _, hg, hk.1, ?_⟩
                by_contra hne
                rw [Nat.testBit_two_pow_of_ne hne] at h2
                exact Bool.false_ne_true h2
            · rw [if_neg hk] at hbit
              exact Or.inl hbit
          · rw [if_neg hg] at hbit
            exact Or.inl hbit
        · exact Or.inr ⟨q, List.mem_cons_of_mem _ hq, hg, hik, hsj⟩
      · rintro (hbit | ⟨q, hq, hg, hik, hsj⟩)
        · left
          by_cases hg : guard p = true
          · rw [if_pos hg, getD_set_nat]
            by_cases hk : idx p = k ∧ idx p < init.length
            · rw [if_pos hk, hk.1, Nat.one_shiftLeft, Nat.testBit_or, hbit]
              simp
            · rw [if_neg hk]; exact hbit
          · rw [if_neg hg]; exact hbit
        · rcases List.mem_cons.mp hq with rfl | hqt
          · left
            rw [if_pos hg, getD_set_nat,
              if_pos ⟨hik, hidx q (List.mem_cons_self _ _)⟩, Nat.one_shiftLeft,
              Nat.testBit_or, ← hsj, Nat.testBit_two_pow_self]
            simp
          · exact Or.inr ⟨q, hqt, hg, hik, hsj⟩

lemma foldl_foldl_flatMap2 {α : Type} (f : α → Nat → Nat → α) (ys xs : List Nat) (init : α) :
    ys.foldl (fun a y => xs.foldl (fun a x => f a y x) a) init
      = (ys.flatMap fun y => xs.map fun x => (y, x)).foldl (fun a p => f a p.1 p.2) init := by
  induction ys generalizing init with
  | nil => rfl
  | cons y t ih =>
      simp only [List.flatMap_cons, List.foldl_append, List.foldl_cons, List.foldl_map]
      rw [← ih]

namespace BitMatrix

lemma get_eq_testBit (m : BitMatrix) (hwf : m.WF) {x y : Nat}
    (hx : x < m.width) (hy : y < m.height) :
    m.get x y = (m.bits.getD (y * m.row_size + x / 32) 0).testBit (x % 32) := by
  obtain ⟨hw, hh, hrs, hlen⟩ := hwf
  have hx32 : x / 32 < m.row_size := by
    rw [hrs]; simp only [BASE_BITS]; omega
  have hoff : y * m.row_size + x / 32 < m.bits.length := by
    rw [hlen]
    calc y * m.row_size + x / 32 < y * m.row_size + m.row_size := by omega
      _ = (y + 1) * m.row_size := by ring
      _ ≤ m.height * m.row_size := Nat.mul_le_mul_right _ (by omega)
      _ = m.row_size * m.height := Nat.mul_comm _ _
  simp only [get, get_offset, BASE_BITS]
  rw [if_neg (by omega), bne_and_one_eq_testBit, and_base_shift_eq_mod]

lemma rotate90_bits (m : BitMatrix) :
    m.rotate90.bits
      = ((List.range m.height).flatMap fun y => (List.range m.width).map fun x => (y, x)).foldl
          (fun nb p =>
            if ((m.bits.getD (m.get_offset p.1 p.2) 0 >>> (p.2 &&& BASE_SHIFT)) &&& 1) != 0 then
              nb.set
                ((m.width - 1 - p.2) * ((m.height + BASE_BITS - 1) / BASE_BITS) + p.1 / BASE_BITS)
                (nb.getD
                  ((m.width - 1 - p.2) * ((m.height + BASE_BITS - 1) / BASE_BITS) + p.1 / BASE_BITS)
                  0 ||| (1 <<< (p.1 &&& BASE_SHIFT)))
            else nb)
          (List.replicate ((m.height + BASE_BITS - 1) / BASE_BITS * m.width) 0) :=
  foldl_foldl_flatMap2 _ _ _ _

lemma rotate90_testBit (m : BitMatrix) (k j : Nat) :
    ((m.rotate90.bits.getD k 0).testBit j = true)
      ↔ ∃ p : Nat × Nat, p.1 < m.height ∧ p.2 < m.width ∧
          (m.bits.getD (p.1 * m.row_size + p.2 / 32) 0).testBit (p.2 % 32) = true ∧
          (m.width - 1 - p.2) * ((m.height + 31) / 32) + p.1 / 32 = k ∧ p.1 % 32 = j := by
  have hidx : ∀ p ∈ ((List.range m.height).flatMap fun y =>
      (List.range m.width).map fun x => (y, x)),
      ((m.width - 1 - p.2) * ((m.height + BASE_BITS - 1) / BASE_BITS) + p.1 / BASE_BITS)
        < (List.replicate ((m.height + BASE_BITS - 1) / BASE_BITS * m.width) 0).length := by
    intro p hp
    simp only [List.mem_flatMap, List.mem_map, List.mem_range] at hp
    obtain ⟨y, hy, x, hx, rfl⟩ := hp
    simp only [List.length_replicate, BASE_BITS]
    have hdiv : y / 32 < (m.height + 32 - 1) / 32 := by omega
    calc (m.width - 1 - x) * ((m.height + 32 - 1) / 32) + y / 32
        < (m.width - 1 - x) * ((m.height + 32 - 1) / 32) + (m.height + 32 - 1) / 32 := by omega
      _ = (m.width - 1 - x + 1) * ((m.height + 32 - 1) / 32) := by ring
      _ ≤ m.width * ((m.height + 32 - 1) / 32) := Nat.mul_le_mul_right _ (by omega)
      _ = (m.height + 32 - 1) / 32 * m.width := Nat.mul_comm _ _
  rw [rotate90_bits]
  rw [testBit_foldl_orUpdate _ _ _ _ _ hidx]
  have hzero : ((List.replicate ((m.height + BASE_BITS - 1) / BASE_BITS * m.width) 0).getD k 0)
      = 0 := by
    rcases Nat.lt_or_ge k ((m.height + BASE_BITS - 1) / BASE_BITS * m.width) with h | h
    · rw [List.getD_eq_getElem?_getD, List.getElem?_replicate, if_pos (by simpa using h)]
      rfl
    · rw [List.getD_eq_getElem?_getD, List.getElem?_eq_none (by simpa using h)]
      rfl
  rw [hzero]
  simp only [Nat.zero_testBit, Bool.false_eq_true, List.mem_flatMap, List.mem_map,
    List.mem_range, BASE_BITS, BASE_SHIFT, false_or]
  constructor
  · rintro ⟨p, ⟨y, hy, x, hx, rfl⟩, hg, hik, hsj⟩
    refine ⟨(y, x), hy, hx, ?_, ?_, ?_⟩
    · rw [bne_and_one_eq_testBit, and_31_eq_mod] at hg
      simpa [get_offset, BASE_BITS] using hg
    · simpa using hik
    · rw [and_31_eq_mod] at hsj
      exact hsj
  · rintro ⟨p, h1, h2, hg, hik, hsj⟩
    refine ⟨p, ⟨p.1, h1, p.2, h2, rfl⟩, ?_, ?_, ?_⟩
    · rw [bne_and_one_eq_testBit, and_31_eq_mod]
      simpa [get_offset, BASE_BITS] using hg
    · simpa using hik
    · rw [and_31_eq_mod]
      exact hsj

lemma rotate90_WF (m : BitMatrix) (hwf : m.WF) : m.rotate90.WF := by
  obtain ⟨hw, hh, hrs, hlen⟩ := hwf
  refine ⟨hh, hw, rfl, ?_⟩
  show _ = (m.height + BASE_BITS - 1) / BASE_BITS * m.width
  rw [rotate90_bits]
  apply foldl_invariant
    (P := fun l : List Nat => l.length = (m.height + BASE_BITS - 1) / BASE_BITS * m.width)
  · simp
  · intro a b _ ha
    split
    · simpa using ha
    · exact ha

lemma rotate90_dims (m : BitMatrix) :
    m.rotate90.width = m.height ∧ m.rotate90.height = m.width := ⟨rfl, rfl⟩

lemma rotate90_get (m : BitMatrix) (hwf : m.WF) {x y : Nat}
    (hx : x < m.height) (hy : y < m.width) :
    m.rotate90.get x y = m.get (m.width - 1 - y) x := by
  obtain ⟨hw, hh, hrs, hlen⟩ := hwf
  have hwf : m.WF := ⟨hw, hh, hrs, hlen⟩
  have hwf' := rotate90_WF m hwf
  have hrs' : m.rotate90.row_size = (m.height + 31) / 32 := by
    show (m.height + BASE_BITS - 1) / BASE_BITS = _
    simp only [BASE_BITS]
    omega
  rw [get_eq_testBit _ hwf' hx hy, get_eq_testBit m hwf (by omega) hx, hrs',
    Bool.eq_iff_iff, rotate90_testBit]
  constructor
  · rintro ⟨p, hp1, hp2, hg, hik, hsj⟩
    have hb1 : p.1 / 32 < (m.height + 31) / 32 := by omega
    have hb2 : x / 32 < (m.height + 31) / 32 := by omega
    obtain ⟨hq, hr⟩ := mul_add_lt_unique hb1 hb2 hik
    have hp1x : p.1 = x := by omega
    have hp2y : p.2 = m.width - 1 - y := by omega
    rw [hp1x, hp2y] at hg
    exact hg
  · intro hg
    refine ⟨(x, m.width - 1 - y), hx, by omega, hg, ?_, rfl⟩
    simp only
    have hyy : m.width - 1 - (m.width - 1 - y) = y := by omega
    rw [hyy]

end BitMatrix

lemma getD_ge_length {α : Type} (l : List α) (i : Nat) (d : α) (h : l.length ≤ i) :
    l.getD i d = d := by
  rw [List.getD_eq_getElem?_getD, List.getElem?_eq_none h]
  rfl

lemma natFromBitsLE_testBit (l : List Bool) : ∀ j, (natFromBitsLE l).testBit j = l.getD j false := by
  induction l with
  | nil =>
      intro j
      simp [natFromBitsLE, Nat.zero_testBit]
  | cons b t ih =>
      intro j
      have hval : natFromBitsLE (b :: t) = b.toNat + 2 * natFromBitsLE t := rfl
      cases j with
      | zero =>
          rw [hval, Nat.testBit_zero]
          cases b <;> simp [Nat.add_mul_mod_self_left]
      | succ j =>
          rw [hval, Nat.testBit_succ]
          have h2 : (b.toNat + 2 * natFromBitsLE t) / 2 = natFromBitsLE t := by
            cases b <;> simp <;> omega
          rw [h2, ih j]
          simp

lemma row_window_iff {rs a b c : Nat} (hc : c < rs) :
    (b * rs ≤ a * rs + c ∧ a * rs + c < b * rs + rs) ↔ a = b := by
  constructor
  · rintro ⟨h1, h2⟩
    by_contra hne
    rcases Nat.lt_or_ge a b with h | h
    · have hlt : a * rs + c < b * rs := by
        calc a * rs + c < a * rs + rs := by omega
          _ = (a + 1) * rs := by ring
          _ ≤ b * rs := Nat.mul_le_mul_right _ (by omega)
      omega
    · have hab : b < a := by omega
      have hge : b * rs + rs ≤ a * rs := by
        calc b * rs + rs = (b + 1) * rs := by ring
          _ ≤ a * rs := Nat.mul_le_mul_right _ (by omega)
      omega
  · rintro rfl; omega

namespace BitArray

lemma setBulk_size (a : BitArray) (pos w : Nat) : (a.setBulk pos w).size = a.size := rfl

lemma setBulk_length (a : BitArray) (pos w : Nat) :
    (a.setBulk pos w).bits.length = a.size := by
  simp [setBulk]

lemma setBulk_getD (a : BitArray) (pos w i : Nat) :
    (a.setBulk pos w).bits.getD i false
      = if i < a.size then
          (if pos ≤ i ∧ i < pos + BASE_BITS then w.testBit (i - pos) else a.bits.getD i false)
        else false := by
  simp only [setBulk]
  exact getD_map_range _ _ _ _

lemma reverse_size (a : BitArray) : a.reverse.size = a.size := rfl

lemma reverse_length (a : BitArray) : a.reverse.bits.length = a.bits.length := by
  simp [reverse]

lemma reverse_getD (a : BitArray) (hal : a.bits.length = a.size) {i : Nat} (hi : i < a.size) :
    a.reverse.bits.getD i false = a.bits.getD (a.size - 1 - i) false := by
  simp only [reverse]
  rw [List.getD_eq_getElem?_getD, List.getElem?_reverse (by omega),
    ← List.getD_eq_getElem?_getD, hal]

lemma getBitArray_length (a : BitArray) :
    a.getBitArray.length = (a.size + BASE_BITS - 1) / BASE_BITS := by
  simp [getBitArray]

lemma getBitArray_testBit (a : BitArray) (hal : a.bits.length = a.size) {x : Nat}
    (hx : x < a.size) :
    ((a.getBitArray.getD (x / 32) 0).testBit (x % 32)) = a.bits.getD x false := by
  simp only [getBitArray, BASE_BITS]
  rw [getD_map_range, if_pos (by omega), natFromBitsLE_testBit]
  rw [List.getD_eq_getElem?_getD, List.getElem?_take_of_lt (by omega), List.getElem?_drop,
    ← List.getD_eq_getElem?_getD]
  congr 1
  omega

end BitArray

namespace BitMatrix

/-- Abbreviation for the word-level bit of a matrix at column `x` of row `y`
(meaningful for in-range coordinates of a well-formed matrix). -/
def matBit (m : BitMatrix) (x y : Nat) : Bool :=
  (m.bits.getD (y * m.row_size + x / 32) 0).testBit (x % 32)

lemma get_eq_matBit (m : BitMatrix) (hwf : m.WF) {x y : Nat}
    (hx : x < m.width) (hy : y < m.height) : m.get x y = m.matBit x y :=
  get_eq_testBit m hwf hx hy

lemma getRow_aux (m : BitMatrix) (y : Nat) (xs : List Nat) :
    ∀ (a : BitArray), a.size = m.width → a.bits.length = a.size → ∀ i,
    ((xs.foldl (fun rw x => rw.setBulk (x * BASE_BITS) (m.bits.getD (y * m.row_size + x) 0))
        a).bits.getD i false)
      = if i < m.width ∧ i / 32 ∈ xs then
          (m.bits.getD (y * m.row_size + i / 32) 0).testBit (i % 32)
        else a.bits.getD i false := by
  induction xs with
  | nil =>
      intro a _ _ i
      simp
  | cons x t ih =>
      intro a ha hal i
      rw [List.foldl_cons]
      rw [ih (a.setBulk (x * BASE_BITS) (m.bits.getD (y * m.row_size + x) 0))
            (by rw [BitArray.setBulk_size, ha])
            (by rw [BitArray.setBulk_length, BitArray.setBulk_size])]
      rw [BitArray.setBulk_getD, ha]
      by_cases hiw : i < m.width
      · by_cases hmem : i / 32 ∈ t
        · rw [if_pos ⟨hiw, hmem⟩, if_pos ⟨hiw, List.mem_cons_of_mem _ hmem⟩]
        · rw [if_neg (by rintro ⟨_, hmem'⟩; exact hmem hmem'), if_pos hiw]
          by_cases hwin : x * BASE_BITS ≤ i ∧ i < x * BASE_BITS + BASE_BITS
          · have hx32 : i / 32 = x := by simp only [BASE_BITS] at hwin; omega
            rw [if_pos hwin, if_pos ⟨hiw, by rw [hx32]; exact List.mem_cons_self _ _⟩]
            rw [hx32]
            congr 1
            simp only [BASE_BITS] at hwin ⊢
            omega
          · have hx32 : i / 32 ≠ x := by
              intro hcontr
              simp only [BASE_BITS] at hwin
              omega
            have hnotmem : ¬(i < m.width ∧ i / 32 ∈ x :: t) := by
              rintro ⟨_, hmem'⟩
              rcases List.mem_cons.mp hmem' with h | h
              · exact hx32 h
              · exact hmem h
            rw [if_neg hwin, if_neg hnotmem]
      · have h1 : ¬(i < m.width ∧ i / 32 ∈ t) := fun hc => hiw hc.1
        have h2 : ¬(i < m.width ∧ i / 32 ∈ x :: t) := fun hc => hiw hc.1
        rw [if_neg h1, if_neg h2, if_neg hiw]
        exact (getD_ge_length _ _ _ (by omega)).symm

lemma getRow_size (m : BitMatrix) (y : Nat) : (m.getRow y).size = m.width := by
  unfold getRow
  apply foldl_invariant (P := fun a : BitArray => a.size = m.width)
  · rfl
  · intro a b _ ha
    rw [BitArray.setBulk_size, ha]

lemma getRow_length (m : BitMatrix) (y : Nat) : (m.getRow y).bits.length = (m.getRow y).size := by
  have h : (m.getRow y).bits.length = m.width ∧ (m.getRow y).size = m.width := by
    unfold getRow
    apply foldl_invariant
      (P := fun a : BitArray => a.bits.length = m.width ∧ a.size = m.width)
    · exact ⟨by simp [BitArray.with_size], rfl⟩
    · intro a b _ ha
      rw [BitArray.setBulk_length, BitArray.setBulk_size]
      exact ⟨ha.2, ha.2⟩
  rw [h.1, getRow_size]

lemma getRow_getD (m : BitMatrix) (hwf : m.WF) (y i : Nat) :
    (m.getRow y).bits.getD i false
      = if i < m.width then (m.bits.getD (y * m.row_size + i / 32) 0).testBit (i % 32)
        else false := by
  obtain ⟨hw, hh, hrs, hlen⟩ := hwf
  unfold getRow
  rw [getRow_aux m y _ _ rfl (by simp [BitArray.with_size]) i]
  by_cases hiw : i < m.width
  · rw [if_pos ⟨hiw, by
      simp only [List.mem_range, hrs, BASE_BITS]
      omega⟩, if_pos hiw]
  · rw [if_neg (by rintro ⟨h, _⟩; exact hiw h), if_neg hiw]
    simp [BitArray.with_size]

lemma setRow_fields (m : BitMatrix) (y : Nat) (row : BitArray) :
    (m.setRow y row).width = m.width ∧ (m.setRow y row).height = m.height ∧
      (m.setRow y row).row_size = m.row_size := ⟨rfl, rfl, rfl⟩

lemma setRow_length (m : BitMatrix) (y : Nat) (row : BitArray)
    (hy : y * m.row_size + m.row_size ≤ m.bits.length)
    (hmid : m.row_size ≤ row.getBitArray.length) :
    (m.setRow y row).bits.length = m.bits.length := by
  simp only [setRow, List.length_append, List.length_take, List.length_drop]
  omega

lemma setRow_getD (m : BitMatrix) (y : Nat) (row : BitArray) (k : Nat)
    (hy : y * m.row_size + m.row_size ≤ m.bits.length)
    (hmid : m.row_size ≤ row.getBitArray.length) :
    (m.setRow y row).bits.getD k 0
      = if y * m.row_size ≤ k ∧ k < y * m.row_size + m.row_size then
          row.getBitArray.getD (k - y * m.row_size) 0
        else m.bits.getD k 0 := by
  simp only [setRow]
  have hl1 : (m.bits.take (y * m.row_size)).length = y * m.row_size := by
    rw [List.length_take]; omega
  have hl2 : (row.getBitArray.take m.row_size).length = m.row_size := by
    rw [List.length_take]; omega
  rcases Nat.lt_or_ge k (y * m.row_size) with hk | hk
  · rw [if_neg (by omega)]
    rw [List.getD_eq_getElem?_getD, List.append_assoc,
      List.getElem?_append_left (by rw [hl1]; omega),
      List.getElem?_take_of_lt hk, ← List.getD_eq_getElem?_getD]
  · rcases Nat.lt_or_ge k (y * m.row_size + m.row_size) with hk2 | hk2
    · rw [if_pos ⟨hk, hk2⟩]
      rw [List.getD_eq_getElem?_getD, List.append_assoc,
        List.getElem?_append_right (by rw [hl1]; omega), hl1,
        List.getElem?_append_left (by rw [hl2]; omega),
        List.getElem?_take_of_lt (by omega), ← List.getD_eq_getElem?_getD]
    · rw [if_neg (by omega)]
      rw [List.getD_eq_getElem?_getD, List.append_assoc,
        List.getElem?_append_right (by rw [hl1]; omega), hl1,
        List.getElem?_append_right (by rw [hl2]; omega), hl2,
        List.getElem?_drop, ← List.getD_eq_getElem?_getD]
      congr 1
      omega

lemma setRow_WF (m : BitMatrix) (hwf : m.WF) {y : Nat} (hy : y < m.height)
    (row : BitArray) (hrow : row.size = m.width) : (m.setRow y row).WF := by
  obtain ⟨hw, hh, hrs, hlen⟩ := hwf
  have hy2 : y * m.row_size + m.row_size ≤ m.bits.length := by
    rw [hlen]
    calc y * m.row_size + m.row_size = (y + 1) * m.row_size := by ring
      _ ≤ m.height * m.row_size := Nat.mul_le_mul_right _ (by omega)
      _ = m.row_size * m.height := Nat.mul_comm _ _
  have hmid : m.row_size ≤ row.getBitArray.length := by
    rw [BitArray.getBitArray_length, hrow, ← hrs]
  refine ⟨hw, hh, hrs, ?_⟩
  rw [setRow_length m y row hy2 hmid, hlen]
  rfl

lemma setRow_matBit (m : BitMatrix) (hwf : m.WF) {y : Nat} (hy : y < m.height)
    (row : BitArray) (hrow : row.size = m.width) (hal : row.bits.length = row.size)
    {x y' : Nat} (hx : x < m.width) (hy' : y' < m.height) :
    (m.setRow y row).matBit x y' =
      if y' = y then row.bits.getD x false else m.matBit x y' := by
  obtain ⟨hw, hh, hrs, hlen⟩ := hwf
  have hy2 : y * m.row_size + m.row_size ≤ m.bits.length := by
    rw [hlen]
    calc y * m.row_size + m.row_size = (y + 1) * m.row_size := by ring
      _ ≤ m.height * m.row_size := Nat.mul_le_mul_right _ (by omega)
      _ = m.row_size * m.height := Nat.mul_comm _ _
  have hmid : m.row_size ≤ row.getBitArray.length := by
    rw [BitArray.getBitArray_length, hrow, ← hrs]
  have hx32 : x / 32 < m.row_size := by
    rw [hrs]; simp only [BASE_BITS]; omega
  show ((m.setRow y row).bits.getD (y' * (m.setRow y row).row_size + x / 32) 0).testBit (x % 32)
    = _
  rw [(setRow_fields m y row).2.2, setRow_getD m y row _ hy2 hmid]
  by_cases hyy : y' = y
  · subst hyy
    rw [if_pos (by constructor <;> omega), if_pos rfl]
    have hsub : y' * m.row_size + x / 32 - y' * m.row_size = x / 32 := by omega
    rw [hsub]
    exact row.getBitArray_testBit hal (by omega)
  · rw [if_neg (fun hc => hyy ((row_window_iff hx32).mp hc)), if_neg hyy]
    rfl

lemma getRow_reverse_getD (m : BitMatrix) (hwf : m.WF) (y : Nat) {i : Nat} (hi : i < m.width) :
    ((m.getRow y).reverse).bits.getD i false = m.matBit (m.width - 1 - i) y := by
  have hsz := m.getRow_size y
  have hln := m.getRow_length y
  rw [BitArray.reverse_getD _ hln (by rw [hsz]; exact hi), hsz,
    getRow_getD m hwf y _, if_pos (by omega)]
  rfl

/-- Invariant carried through `rotate180`'s loop: after the first `n` row
pairs have been processed, the outer `n` rows at each end hold the
reversed-and-swapped originals and the middle ones are untouched. -/
def Rot180Inv (m res : BitMatrix) (n : Nat) : Prop :=
  res.WF ∧ res.width = m.width ∧ res.height = m.height ∧ res.row_size = m.row_size ∧
  ∀ x y, x < m.width → y < m.height →
    res.matBit x y =
      if y < n ∨ m.height - n ≤ y then m.matBit (m.width - 1 - x) (m.height - 1 - y)
      else m.matBit x y

lemma rotate180_aux (m : BitMatrix) (hwf : m.WF) :
    ∀ n, n ≤ (m.height + 1) / 2 →
      Rot180Inv m
        ((List.range n).foldl
          (fun m i =>
            let topRow := (m.getRow i).reverse
            let bottomRowIndex := m.height - 1 - i
            let bottomRow := (m.getRow bottomRowIndex).reverse
            let m := m.setRow i bottomRow
            m.setRow bottomRowIndex topRow)
          m) n := by
  intro n
  induction n with
  | zero =>
      intro _
      refine ⟨hwf, rfl, rfl, rfl, ?_⟩
      intro x y hx hy
      rw [if_neg (by omega)]
      rfl
  | succ n ih =>
      intro hn1
      obtain ⟨hcwf, hcw, hch, hcr, hcbits⟩ := ih (by omega)
      rw [List.range_succ, List.foldl_append, List.foldl_cons, List.foldl_nil]
      set c := (List.range n).foldl
        (fun m i =>
          let topRow := (m.getRow i).reverse
          let bottomRowIndex := m.height - 1 - i
          let bottomRow := (m.getRow bottomRowIndex).reverse
          let m := m.setRow i bottomRow
          m.setRow bottomRowIndex topRow)
        m with hc
      simp only
      obtain ⟨hw, hh, hrs, hlen⟩ := hwf
      have hnH : n < m.height := by omega
      have hbIdx : c.height - 1 - n = m.height - 1 - n := by rw [hch]
      have hnc : n < c.height := by omega
      have hbc : c.height - 1 - n < c.height := by omega
      -- row payloads
      have htop_size : ((c.getRow n).reverse).size = c.width := by
        rw [BitArray.reverse_size, getRow_size]
      have htop_len : ((c.getRow n).reverse).bits.length = ((c.getRow n).reverse).size := by
        rw [BitArray.reverse_length, BitArray.reverse_size, getRow_length]
      have hbot_size : ((c.getRow (c.height - 1 - n)).reverse).size = c.width := by
        rw [BitArray.reverse_size, getRow_size]
      have hbot_len : ((c.getRow (c.height - 1 - n)).reverse).bits.length
          = ((c.getRow (c.height - 1 - n)).reverse).size := by
        rw [BitArray.reverse_length, BitArray.reverse_size, getRow_length]
      have hm1wf : (c.setRow n ((c.getRow (c.height - 1 - n)).reverse)).WF :=
        setRow_WF c hcwf hnc _ hbot_size
      have hm1h : (c.setRow n ((c.getRow (c.height - 1 - n)).reverse)).height = c.height := rfl
      have hreswf :
          ((c.setRow n ((c.getRow (c.height - 1 - n)).reverse)).setRow (c.height - 1 - n)
            ((c.getRow n).reverse)).WF :=
        setRow_WF _ hm1wf (by rw [hm1h]; exact hbc) _ htop_size
      refine ⟨hreswf, hcw, hch, hcr, ?_⟩
      intro x y hx hy
      have hxc : x < c.width := by rw [hcw]; exact hx
      have hyc : y < c.height := by rw [hch]; exact hy
      rw [setRow_matBit _ hm1wf (by rw [hm1h]; exact hbc) _ htop_size htop_len
        (by rw [show (c.setRow n ((c.getRow (c.height - 1 - n)).reverse)).width = c.width
                  from rfl]; exact hxc)
        (by rw [hm1h]; exact hyc)]
      rw [setRow_matBit c hcwf hnc _ hbot_size hbot_len hxc hyc]
      -- values of the two swapped rows
      have htopval : ((c.getRow n).reverse).bits.getD x false
          = m.matBit (m.width - 1 - x) n := by
        rw [getRow_reverse_getD c hcwf n hxc, hcw]
        rw [hcbits (m.width - 1 - x) n (by omega) hnH, if_neg (by omega)]
      have hbotval : ((c.getRow (c.height - 1 - n)).reverse).bits.getD x false
          = m.matBit (m.width - 1 - x) (m.height - 1 - n) := by
        rw [getRow_reverse_getD c hcwf _ hxc, hcw, hbIdx]
        rw [hcbits (m.width - 1 - x) (m.height - 1 - n) (by omega) (by omega),
          if_neg (by omega)]
      rw [hbIdx] at hbotval
      rw [hbIdx]
      by_cases hyb : y = m.height - 1 - n
      · rw [if_pos hyb, hyb, htopval, if_pos (by omega)]
        congr 1
        omega
      · rw [if_neg hyb]
        by_cases hyn : y = n
        · rw [if_pos hyn, hbotval, hyn, if_pos (by omega)]
        · rw [if_neg hyn]
          rw [hcbits x y hx hy]
          by_cases hreg : y < n ∨ m.height - n ≤ y
          · rw [if_pos hreg, if_pos (by omega)]
          · rw [if_neg hreg, if_neg (by omega)]

lemma rotate180_spec (m : BitMatrix) (hwf : m.WF) :
    m.rotate180.WF ∧ m.rotate180.width = m.width ∧ m.rotate180.height = m.height ∧
      ∀ x y, x < m.width → y < m.height →
        m.rotate180.get x y = m.get (m.width - 1 - x) (m.height - 1 - y) := by
  obtain ⟨hreswf, hrw, hrh, hrr, hbits⟩ :=
    rotate180_aux m hwf ((m.height + 1) / 2) le_rfl
  unfold rotate180
  refine ⟨hreswf, hrw, hrh, ?_⟩
  intro x y hx hy
  have hw : 1 ≤ m.width := hwf.1
  have hh : 1 ≤ m.height := hwf.2.1
  rw [get_eq_matBit _ hreswf (by rw [hrw]; exact hx) (by rw [hrh]; exact hy),
    hbits x y hx hy, if_pos (by omega),
    ← get_eq_matBit m hwf (by omega) (by omega)]

lemma rotate180_twice_spec (m : BitMatrix) (hwf : m.WF) :
    m.rotate180.rotate180.WF ∧ m.rotate180.rotate180.width = m.width ∧
      m.rotate180.rotate180.height = m.height ∧
      ∀ x y, x < m.width → y < m.height → m.rotate180.rotate180.get x y = m.get x y := by
  obtain ⟨hwf1, hw1, hh1, hg1⟩ := rotate180_spec m hwf
  obtain ⟨hwf2, hw2, hh2, hg2⟩ := rotate180_spec m.rotate180 hwf1
  refine ⟨hwf2, by rw [hw2, hw1], by rw [hh2, hh1], ?_⟩
  intro x y hx hy
  rw [hw1, hh1] at hg2
  rw [hg2 x y hx hy, hg1 (m.width - 1 - x) (m.height - 1 - y) (by omega) (by omega)]
  have hxx : m.width - 1 - (m.width - 1 - x) = x := by omega
  have hyy : m.height - 1 - (m.height - 1 - y) = y := by omega
  rw [hxx, hyy]

lemma rotate270_step_spec (m : BitMatrix) (hwf : m.WF) :
    m.rotate90.rotate180.WF ∧ m.rotate90.rotate180.width = m.height ∧
      m.rotate90.rotate180.height = m.width ∧
      ∀ x y, x < m.height → y < m.width →
        m.rotate90.rotate180.get x y = m.get y (m.height - 1 - x) := by
  have hwf1 := rotate90_WF m hwf
  obtain ⟨hwf2, hw2, hh2, hg2⟩ := rotate180_spec m.rotate90 hwf1
  have hw1 : m.rotate90.width = m.height := rfl
  have hh1 : m.rotate90.height = m.width := rfl
  refine ⟨hwf2, by rw [hw2, hw1], by rw [hh2, hh1], ?_⟩
  intro x y hx hy
  rw [hw1, hh1] at hg2
  rw [hg2 x y hx hy]
  have hgr : m.rotate90.get (m.height - 1 - x) (m.width - 1 - y)
      = m.get (m.width - 1 - (m.width - 1 - y)) (m.height - 1 - x) :=
    rotate90_get m hwf (by omega) (by omega)
  rw [hgr]
  have hyy : m.width - 1 - (m.width - 1 - y) = y := by omega
  rw [hyy]

end BitMatrix

/-- Cursor over an immutable byte sequence (src/common/bit_source.rs).  Bytes
are `Nat`s below 256; the cursor is a byte offset plus a bit offset in
[0, 8). -/
structure BitSource where
  bytes : List Nat
  byte_offset : Nat
  bit_offset : Nat
  deriving DecidableEq, Repr

namespace BitSource

/-- `BitSource::new`. -/
def new (bytes : List Nat) : BitSource := ⟨bytes, 0, 0⟩

/-- `BitSource::available`: the number of readable bits left. -/
def available (s : BitSource) : Nat :=
  8 * (s.bytes.length - s.byte_offset) - s.bit_offset

/-- The `while num_bits >= 8` whole-byte loop in the body of `readBits`:
accumulate each byte MSB-first and advance.  The `u32` accumulator cannot
wrap because at most 32 bits total are ever accumulated, so no `% 2 ^ 32`
is needed. -/
def readBits_loop (bytes : List Nat) (result byte_offset num_bits : Nat) : Nat × Nat × Nat :=
  if num_bits ≥ 8 then
    readBits_loop bytes ((result <<< 8) ||| bytes.getD byte_offset 0) (byte_offset + 1)
      (num_bits - 8)
  else (result, byte_offset, num_bits)
termination_by num_bits
decreasing_by omega

/-- The identical `while num_bits >= 8` loop in the body of `peak_bits`
(duplicated in the source). -/
def peak_bits_loop (bytes : List Nat) (result byte_offset num_bits : Nat) : Nat × Nat × Nat :=
  if num_bits ≥ 8 then
    peak_bits_loop bytes ((result <<< 8) ||| bytes.getD byte_offset 0) (byte_offset + 1)
      (num_bits - 8)
  else (result, byte_offset, num_bits)
termination_by num_bits
decreasing_by omega

/-- Phases two and three of `readBits` (whole bytes, then a trailing partial
byte), continued from the state left by the first phase. -/
def readBits_tail (bytes : List Nat) (result byte_offset bit_offset num_bits : Nat) :
    Nat × BitSource :=
  if num_bits > 0 then
    match readBits_loop bytes result byte_offset num_bits with
    | (result, byte_offset, num_bits) =>
      if num_bits > 0 then
        let bits_to_not_read := 8 - num_bits
        let mask := (0xFF >>> bits_to_not_read) <<< bits_to_not_read
        ((result <<< num_bits) ||| ((bytes.getD byte_offset 0 &&& mask) >>> bits_to_not_read),
          ⟨bytes, byte_offset, bit_offset + num_bits⟩)
      else (result, ⟨bytes, byte_offset, bit_offset⟩)
  else (result, ⟨bytes, byte_offset, bit_offset⟩)

/-- Phases two and three of `peak_bits` (identical arithmetic, but the cursor
locals are discarded). -/
def peak_bits_tail (bytes : List Nat) (result byte_offset num_bits : Nat) : Nat :=
  if num_bits > 0 then
    match peak_bits_loop bytes result byte_offset num_bits with
    | (result, byte_offset, num_bits) =>
      if num_bits > 0 then
        let bits_to_not_read := 8 - num_bits
        let mask := (0xFF >>> bits_to_not_read) <<< bits_to_not_read
        (result <<< num_bits) ||| ((bytes.getD byte_offset 0 &&& mask) >>> bits_to_not_read)
      else result
  else result

/-- `BitSource::readBits`: guard `1 ≤ n ≤ 32 ∧ n ≤ available`, then read the
remainder of the current byte, whole bytes, and a trailing partial byte,
MSB-first, returning the value and the advanced cursor. -/
def readBits (s : BitSource) (numBits : Nat) : Except Exceptions (Nat × BitSource) :=
  if ¬(1 ≤ numBits ∧ numBits ≤ 32) ∨ numBits > s.available then
    .error (.illegalArgument (toString numBits))
  else if s.bit_offset > 0 then
    let bitsLeft := 8 - s.bit_offset
    let toRead := min numBits bitsLeft
    let bitsToNotRead := bitsLeft - toRead
    let mask := (0xFF >>> (8 - toRead)) <<< bitsToNotRead
    let result := (s.bytes.getD s.byte_offset 0 &&& mask) >>> bitsToNotRead
    if s.bit_offset + toRead = 8 then
      .ok (readBits_tail s.bytes result (s.byte_offset + 1) 0 (numBits - toRead))
    else
      .ok (readBits_tail s.bytes result s.byte_offset (s.bit_offset + toRead)
        (numBits - toRead))
  else
    .ok (readBits_tail s.bytes 0 s.byte_offset s.bit_offset numBits)

/-- `BitSource::peak_bits`: the same guard and the same value computation as
`readBits`, performed on local copies of the cursor (the method takes
`&self`, so the receiver's cursor is untouched — which is why the embedding
returns only the value). -/
def peak_bits (s : BitSource) (numBits : Nat) : Except Exceptions Nat :=
  if ¬(1 ≤ numBits ∧ numBits ≤ 32) ∨ numBits > s.available then
    .error (.illegalArgument (toString numBits))
  else if s.bit_offset > 0 then
    let bitsLeft := 8 - s.bit_offset
    let toRead := min numBits bitsLeft
    let bitsToNotRead := bitsLeft - toRead
    let mask := (0xFF >>> (8 - toRead)) <<< bitsToNotRead
    let result := (s.bytes.getD s.byte_offset 0 &&& mask) >>> bitsToNotRead
    if s.bit_offset + toRead = 8 then
      .ok (peak_bits_tail s.bytes result (s.byte_offset + 1) (numBits - toRead))
    else
      .ok (peak_bits_tail s.bytes result s.byte_offset (numBits - toRead))
  else
    .ok (peak_bits_tail s.bytes 0 s.byte_offset numBits)

lemma peak_bits_loop_eq_readBits_loop (bytes : List Nat) :
    ∀ num_bits result byte_offset,
      peak_bits_loop bytes result byte_offset num_bits
        = readBits_loop bytes result byte_offset num_bits := by
  intro num_bits
  induction num_bits using Nat.strong_induction_on with
  | _ num_bits ih =>
      intro result byte_offset
      rw [peak_bits_loop, readBits_loop]
      split
      · exact ih (num_bits - 8) (by omega) _ _
      · rfl

lemma peak_bits_tail_eq_readBits_tail (bytes : List Nat)
    (result byte_offset bit_offset num_bits : Nat) :
    peak_bits_tail bytes result byte_offset num_bits
      = (readBits_tail bytes result byte_offset bit_offset num_bits).1 := by
  rw [peak_bits_tail, readBits_tail, peak_bits_loop_eq_readBits_loop]
  split
  · split
    · split <;> rfl
  · rfl

end BitSource

/-! Bit-sequence toolkit relating the word-level readers and writers to flat
MSB-first bit lists. -/

/-- The low `n` bits of `x` as an MSB-first list. -/
def toBits (n x : Nat) : List Bool :=
  (List.range n).map fun i => x.testBit (n - 1 - i)

/-- Value of an MSB-first bit list. -/
def natOfBits (bs : List Bool) : Nat :=
  bs.foldl (fun a b => 2 * a + b.toNat) 0

/-- The flat MSB-first bit stream of a byte sequence. -/
def bytesToBits (bytes : List Nat) : List Bool :=
  bytes.flatMap (toBits 8)

lemma length_toBits (n x : Nat) : (toBits n x).length = n := by
  simp [toBits]

lemma getElem_toBits (n x i : Nat) (h : i < n) (hl : i < (toBits n x).length) :
    (toBits n x)[i] = x.testBit (n - 1 - i) := by
  simp [toBits]

lemma natOfBits_foldl_init (bs : List Bool) :
    ∀ a, bs.foldl (fun a b => 2 * a + b.toNat) a = a * 2 ^ bs.length + natOfBits bs := by
  induction bs with
  | nil => intro a; simp [natOfBits]
  | cons b t ih =>
      intro a
      rw [List.foldl_cons, ih (2 * a + b.toNat)]
      have hnat : natOfBits (b :: t) = b.toNat * 2 ^ t.length + natOfBits t := by
        rw [natOfBits, List.foldl_cons]
        simpa using ih b.toNat
      rw [hnat]
      simp only [List.length_cons, pow_succ]
      ring

lemma natOfBits_cons (b : Bool) (t : List Bool) :
    natOfBits (b :: t) = b.toNat * 2 ^ t.length + natOfBits t := by
  rw [natOfBits, List.foldl_cons]
  simpa using natOfBits_foldl_init t b.toNat

lemma natOfBits_append (xs ys : List Bool) :
    natOfBits (xs ++ ys) = natOfBits xs * 2 ^ ys.length + natOfBits ys := by
  rw [natOfBits, List.foldl_append]
  exact natOfBits_foldl_init ys (natOfBits xs)

lemma natOfBits_lt (bs : List Bool) : natOfBits bs < 2 ^ bs.length := by
  induction bs with
  | nil => simp [natOfBits]
  | cons b t ih =>
      rw [natOfBits_cons]
      cases b <;> simp only [Bool.toNat_true, Bool.toNat_false, List.length_cons, pow_succ] <;>
        omega

lemma testBit_mul_two_pow_add (a c t j : Nat) (hc : c < 2 ^ t) :
    (a * 2 ^ t + c).testBit j = if j < t then c.testBit j else a.testBit (j - t) := by
  rcases Nat.lt_or_ge j t with hj | hj
  · rw [if_pos hj]
    rw [Nat.testBit_to_div_mod, Nat.testBit_to_div_mod]
    have hpow : (2 : Nat) ^ t = 2 ^ (t - j - 1) * (2 * 2 ^ j) := by
      rw [show 2 * 2 ^ j = 2 ^ (j + 1) from (pow_succ' 2 j).symm, ← pow_add]
      congr 1
      omega
    have hre : a * 2 ^ t + c = c + 2 ^ j * (a * 2 ^ (t - j - 1) * 2) := by
      rw [hpow]; ring
    have hdm : (a * 2 ^ t + c) / 2 ^ j = c / 2 ^ j + a * 2 ^ (t - j - 1) * 2 := by
      rw [hre, Nat.add_mul_div_left _ _ (Nat.pos_pow_of_pos j (by omega))]
    rw [hdm, Nat.add_mul_mod_self_right]
  · rw [if_neg (by omega)]
    rw [Nat.testBit_to_div_mod, Nat.testBit_to_div_mod]
    have hdiv : (a * 2 ^ t + c) / 2 ^ j = a / 2 ^ (j - t) := by
      have h1 : (2 : Nat) ^ j = 2 ^ t * 2 ^ (j - t) := by
        rw [← pow_add]
        congr 1
        omega
      have hstep : a * 2 ^ t + c = c + 2 ^ t * a := by ring
      rw [h1, ← Nat.div_div_eq_div_mul, hstep,
        Nat.add_mul_div_left _ _ (Nat.pos_pow_of_pos t (by omega)),
        Nat.div_eq_of_lt hc, Nat.zero_add]
    rw [hdiv]

lemma lor_shiftLeft_eq_add {a c t : Nat} (hc : c < 2 ^ t) :
    ((a <<< t) ||| c) = a * 2 ^ t + c := by
  apply Nat.eq_of_testBit_eq
  intro j
  rw [Nat.testBit_or, Nat.testBit_shiftLeft, testBit_mul_two_pow_add a c t j hc]
  rcases Nat.lt_or_ge j t with hj | hj
  · rw [if_pos hj]
    simp [Nat.not_le.mpr hj]
  · rw [if_neg (by omega)]
    have hcf : c.testBit j = false :=
      Nat.testBit_lt_two_pow (Nat.lt_of_lt_of_le hc (Nat.pow_le_pow_right (by omega) hj))
    simp [Nat.le_of_lt, hj, hcf]

lemma mask_extract (b t s : Nat) (ht : t ≤ 8) :
    ((b &&& ((0xFF >>> (8 - t)) <<< s)) >>> s) = (b / 2 ^ s) % 2 ^ t := by
  have hff : ((0xFF : Nat) >>> (8 - t)) = 2 ^ t - 1 := by
    interval_cases t <;> rfl
  rw [hff]
  apply Nat.eq_of_testBit_eq
  intro j
  rw [Nat.testBit_shiftRight, Nat.testBit_and, Nat.testBit_shiftLeft,
    Nat.testBit_mod_two_pow, Nat.testBit_two_pow_sub_one]
  have hdivbit : (b / 2 ^ s).testBit j = b.testBit (s + j) := by
    rw [← Nat.shiftRight_eq_div_pow, Nat.testBit_shiftRight]
  rw [hdivbit]
  have hge : s ≤ s + j := by omega
  have hsub : s + j - s = j := by omega
  simp [hge, hsub, Bool.and_comm]

lemma natOfBits_toBits (n x : Nat) : natOfBits (toBits n x) = x % 2 ^ n := by
  induction n generalizing x with
  | zero => simp [toBits, natOfBits, Nat.mod_one]
  | succ n ih =>
      have hsucc : toBits (n + 1) x = toBits n (x / 2) ++ [x.testBit 0] := by
        rw [toBits, List.range_succ, List.map_append]
        congr 1
        · rw [toBits]
          apply List.map_congr_left
          intro i hi
          rw [List.mem_range] at hi
          rw [← Nat.testBit_succ]
          congr 1
          omega
        · simp
      rw [hsucc, natOfBits_append, ih]
      have hbit : natOfBits [x.testBit 0] = x % 2 := by
        rw [natOfBits]
        simp only [List.foldl_cons, List.foldl_nil]
        rcases Nat.mod_two_eq_zero_or_one x with h | h <;> simp [h]
      rw [hbit]
      simp only [List.length_cons, List.length_nil, pow_one]
      have hmod : x % 2 ^ (n + 1) = x % 2 + 2 * (x / 2 % 2 ^ n) := by
        rw [pow_succ' 2 n, Nat.mod_mul]
      rw [hmod]
      ring

lemma testBit_natOfBits (bs : List Bool) (j : Nat) :
    (natOfBits bs).testBit j
      = (decide (j < bs.length) && bs.getD (bs.length - 1 - j) false) := by
  induction bs with
  | nil => simp [natOfBits, Nat.zero_testBit]
  | cons b t ih =>
      rw [natOfBits_cons, testBit_mul_two_pow_add _ _ _ _ (natOfBits_lt t)]
      rcases Nat.lt_or_ge j t.length with hj | hj
      · rw [if_pos hj, ih]
        have hlen : (b :: t).length - 1 - j = (t.length - 1 - j) + 1 := by
          simp only [List.length_cons]
          omega
        rw [hlen]
        simp [hj, Nat.lt_succ_of_lt hj]
      · rw [if_neg (by omega)]
        rcases Nat.eq_or_lt_of_le hj with heq | hlt
        · rw [← heq]
          simp only [Nat.sub_self, List.length_cons]
          have hidx : t.length + 1 - 1 - t.length = 0 := by omega
          rw [hidx]
          cases b <;> simp [← heq]
        · have hbf : (b.toNat).testBit (j - t.length) = false := by
            apply Nat.testBit_lt_two_pow
            have h2 : (2 : Nat) ^ 1 ≤ 2 ^ (j - t.length) :=
              Nat.pow_le_pow_right (by omega) (by omega)
            cases b <;> simp <;> omega
          rw [hbf]
          simp only [List.length_cons]
          rw [decide_eq_false (by omega)]
          simp

lemma toBits_natOfBits (bs : List Bool) : toBits bs.length (natOfBits bs) = bs := by
  apply List.ext_getElem
  · rw [length_toBits]
  · intro i h1 h2
    rw [length_toBits] at h1
    rw [getElem_toBits _ _ _ h1 (by rw [length_toBits]; exact h1), testBit_natOfBits]
    have hlt : bs.length - 1 - (bs.length - 1 - i) < bs.length := by omega
    have hix : bs.length - 1 - (bs.length - 1 - i) = i := by omega
    rw [decide_eq_true (by omega)]
    rw [hix]
    simp only [Bool.true_and]
    rw [List.getD_eq_getElem?_getD, List.getElem?_eq_getElem h2]
    rfl

lemma toBits_congr {n x y : Nat} (h : ∀ j, j < n → x.testBit j = y.testBit j) :
    toBits n x = toBits n y := by
  rw [toBits, toBits]
  apply List.map_congr_left
  intro i hi
  rw [List.mem_range] at hi
  exact h _ (by omega)

lemma toBits_mod (n x : Nat) : toBits n (x % 2 ^ n) = toBits n x := by
  apply toBits_congr
  intro j hj
  rw [Nat.testBit_mod_two_pow]
  simp [hj]

lemma getElem?_toBits (n x i : Nat) :
    (toBits n x)[i]? = if i < n then some (x.testBit (n - 1 - i)) else none := by
  rw [toBits, List.getElem?_map]
  rcases Nat.lt_or_ge i n with h | h
  · rw [List.getElem?_range h, if_pos h]
    rfl
  · rw [List.getElem?_eq_none (by simpa using h), if_neg (by omega)]
    rfl

lemma toBits_add_split (a b x : Nat) :
    toBits (a + b) x = toBits a (x / 2 ^ b) ++ toBits b x := by
  apply List.ext_getElem?
  intro i
  rw [getElem?_toBits]
  rcases Nat.lt_or_ge i a with hi | hi
  · rw [List.getElem?_append_left (by rw [length_toBits]; exact hi),
      getElem?_toBits, if_pos hi, if_pos (by omega)]
    have hx : (x / 2 ^ b).testBit (a - 1 - i) = x.testBit (a + b - 1 - i) := by
      rw [← Nat.shiftRight_eq_div_pow, Nat.testBit_shiftRight]
      congr 1
      omega
    rw [hx]
  · rw [List.getElem?_append_right (by rw [length_toBits]; exact hi), length_toBits,
      getElem?_toBits]
    rcases Nat.lt_or_ge i (a + b) with h2 | h2
    · rw [if_pos h2, if_pos (by omega)]
      congr 2
      omega
    · rw [if_neg (by omega), if_neg (by omega)]

lemma length_bytesToBits (bytes : List Nat) : (bytesToBits bytes).length = 8 * bytes.length := by
  induction bytes with
  | nil => simp [bytesToBits]
  | cons b t ih =>
      rw [bytesToBits, List.flatMap_cons, List.length_append, length_toBits, ← bytesToBits, ih]
      simp only [List.length_cons]
      ring

lemma drop_bytesToBits (bytes : List Nat) :
    ∀ bo, (bytesToBits bytes).drop (8 * bo) = bytesToBits (bytes.drop bo) := by
  induction bytes with
  | nil => intro bo; simp [bytesToBits]
  | cons b t ih =>
      intro bo
      cases bo with
      | zero => simp
      | succ k =>
          rw [bytesToBits, List.flatMap_cons, List.drop_append_eq_append_drop]
          have h8 : 8 * (k + 1) ≥ (toBits 8 b).length := by rw [length_toBits]; omega
          rw [List.drop_eq_nil_of_le (by rw [length_toBits]; omega), List.nil_append,
            length_toBits]
          have hsub : 8 * (k + 1) - 8 = 8 * k := by omega
          rw [hsub, ← bytesToBits, ih k]
          simp

lemma getD_mem {l : List Nat} {i : Nat} (h : i < l.length) : l.getD i 0 ∈ l := by
  rw [List.getD_eq_getElem?_getD, List.getElem?_eq_getElem h]
  exact List.getElem_mem h

lemma bytesToBits_inj {l1 l2 : List Nat} (h1 : ∀ a ∈ l1, a < 256) (h2 : ∀ a ∈ l2, a < 256)
    (h : bytesToBits l1 = bytesToBits l2) : l1 = l2 := by
  induction l1 generalizing l2 with
  | nil =>
      cases l2 with
      | nil => rfl
      | cons b t =>
          have hl := congrArg List.length h
          rw [length_bytesToBits, length_bytesToBits] at hl
          simp at hl
  | cons a t1 ih =>
      cases l2 with
      | nil =>
          have hl := congrArg List.length h
          rw [length_bytesToBits, length_bytesToBits] at hl
          simp at hl
      | cons b t2 =>
          rw [bytesToBits, List.flatMap_cons, bytesToBits, List.flatMap_cons] at h
          have hta : (toBits 8 a).length = (toBits 8 b).length := by
            rw [length_toBits, length_toBits]
          have hfst : toBits 8 a = toBits 8 b := by
            have := congrArg (List.take 8) h
            rwa [List.take_append_of_le_length (by simp [length_toBits]),
              List.take_append_of_le_length (by simp [length_toBits]),
              List.take_of_length_le (by simp [length_toBits]),
              List.take_of_length_le (by simp [length_toBits])] at this
          have hab : a = b := by
            have hva : natOfBits (toBits 8 a) = a % 2 ^ 8 := natOfBits_toBits 8 a
            have hvb : natOfBits (toBits 8 b) = b % 2 ^ 8 := natOfBits_toBits 8 b
            rw [hfst, hvb] at hva
            have ha : a % 2 ^ 8 = a := Nat.mod_eq_of_lt
              (by have := h1 a (List.mem_cons_self _ _); norm_num; omega)
            have hb : b % 2 ^ 8 = b := Nat.mod_eq_of_lt
              (by have := h2 b (List.mem_cons_self _ _); norm_num; omega)
            omega
          have hrest : bytesToBits t1 = bytesToBits t2 := by
            have hdrop := congrArg (List.drop 8) h
            rw [List.drop_append_eq_append_drop, List.drop_append_eq_append_drop,
              List.drop_eq_nil_of_le (show (toBits 8 a).length ≤ 8 by simp [length_toBits]),
              List.drop_eq_nil_of_le
                (show (toBits 8 b).length ≤ 8 by simp [length_toBits])] at hdrop
            simp only [length_toBits, Nat.sub_self, List.drop_zero, List.nil_append] at hdrop
            exact hdrop
          rw [hab, ih (fun x hx => h1 x (List.mem_cons_of_mem _ hx))
            (fun x hx => h2 x (List.mem_cons_of_mem _ hx)) hrest]

/-- Byte builder that packs written bits MSB-first
(src/common/bit_source_builder.rs). -/
structure BitSourceBuilder where
  output : List Nat
  nextByte : Nat
  bitsLeftInNextByte : Nat
  deriving DecidableEq, Repr

namespace BitSourceBuilder

/-- `BitSourceBuilder::new`: empty output, empty accumulator, 8 free bits. -/
def new : BitSourceBuilder := ⟨[], 0, 8⟩

/-- `BitSourceBuilder::write`: append the low `numBits` bits of `value`
MSB-first.  The `u32` accumulator wraps when shifted (hence `% 2 ^ 32`) and
pushing truncates to a byte (`as u8`, modelled `% 256`).  The recursion in
the source terminates because `bitsLeftInNextByte` always stays in [1, 8];
the extra `bitsLeftInNextByte = 0` early return (unreachable from `new`)
only makes the recursion well-founded in Lean. -/
def write (b : BitSourceBuilder) (value numBits : Nat) : BitSourceBuilder :=
  if h1 : numBits ≤ b.bitsLeftInNextByte then
    let nextByte := ((b.nextByte <<< numBits) % 2 ^ 32) ||| value
    let bitsLeftInNextByte := b.bitsLeftInNextByte - numBits
    if bitsLeftInNextByte = 0 then
      { output := b.output ++ [nextByte % 256], nextByte := 0, bitsLeftInNextByte := 8 }
    else
      { output := b.output, nextByte := nextByte, bitsLeftInNextByte := bitsLeftInNextByte }
  else if h2 : b.bitsLeftInNextByte = 0 then
    b
  else
    let bitsToWriteNow := b.bitsLeftInNextByte
    let numRestOfBits := numBits - bitsToWriteNow
    let mask := 0xFF >>> (8 - bitsToWriteNow)
    let valueToWriteNow := (value >>> numRestOfBits) &&& mask
    (b.write valueToWriteNow bitsToWriteNow).write value numRestOfBits
termination_by numBits
decreasing_by
  · omega
  · omega

/-- `toByteArray` (and the identical `asByteArray`): pad the trailing byte
with zero bits, then return the packed bytes. -/
def toByteArray (b : BitSourceBuilder) : List Nat :=
  if b.bitsLeftInNextByte < 8 then (b.write 0 b.bitsLeftInNextByte).output
  else b.output

/-- The abstract bit sequence a builder holds: the bits of the finished
bytes followed by the bits already written into the pending byte. -/
def builderBits (b : BitSourceBuilder) : List Bool :=
  bytesToBits b.output ++ toBits (8 - b.bitsLeftInNextByte) b.nextByte

/-- Builder invariant: finished bytes are bytes, and the pending-byte free
count stays in [1, 8] (as it does along every reachable state). -/
def BInv (b : BitSourceBuilder) : Prop :=
  (∀ a ∈ b.output, a < 256) ∧ 1 ≤ b.bitsLeftInNextByte ∧ b.bitsLeftInNextByte ≤ 8

end BitSourceBuilder

lemma bytesToBits_append (l1 l2 : List Nat) :
    bytesToBits (l1 ++ l2) = bytesToBits l1 ++ bytesToBits l2 := by
  simp [bytesToBits]

lemma builderBits_length (b : BitSourceBuilder) :
    (BitSourceBuilder.builderBits b).length
      = 8 * b.output.length + (8 - b.bitsLeftInNextByte) := by
  rw [BitSourceBuilder.builderBits, List.length_append, length_bytesToBits, length_toBits]

namespace BitSourceBuilder

lemma write_spec :
    ∀ (numBits : Nat) (b : BitSourceBuilder) (value : Nat), BInv b →
      (b.bitsLeftInNextByte = 8 ∨ value < 2 ^ numBits) →
      BInv (b.write value numBits) ∧
        builderBits (b.write value numBits) = builderBits b ++ toBits numBits value := by
  intro numBits
  induction numBits using Nat.strong_induction_on with
  | _ numBits ih =>
      intro b value hinv hval
      obtain ⟨hout, hbl1, hbl8⟩ := hinv
      rw [write]
      by_cases h1 : numBits ≤ b.bitsLeftInNextByte
      · rw [dif_pos h1]
        have hlow : toBits numBits (((b.nextByte <<< numBits) % 2 ^ 32) ||| value)
            = toBits numBits value := by
          apply toBits_congr
          intro j hj
          rw [Nat.testBit_or, Nat.testBit_mod_two_pow, Nat.testBit_shiftLeft]
          have hj32 : j < 32 := by omega
          have hjn : ¬ numBits ≤ j := by omega
          simp [hj32, hjn]
        have hhigh : toBits (8 - b.bitsLeftInNextByte)
              ((((b.nextByte <<< numBits) % 2 ^ 32) ||| value) / 2 ^ numBits)
            = toBits (8 - b.bitsLeftInNextByte) b.nextByte := by
          apply toBits_congr
          intro j hj
          have hdb : ((((b.nextByte <<< numBits) % 2 ^ 32) ||| value) / 2 ^ numBits).testBit j
              = ((((b.nextByte <<< numBits) % 2 ^ 32) ||| value)).testBit (numBits + j) := by
            rw [← Nat.shiftRight_eq_div_pow, Nat.testBit_shiftRight]
          rw [hdb, Nat.testBit_or, Nat.testBit_mod_two_pow, Nat.testBit_shiftLeft]
          have hj32 : numBits + j < 32 := by omega
          have hvb : value.testBit (numBits + j) = false := by
            rcases hval with h8 | hvlt
            · omega
            · exact Nat.testBit_lt_two_pow
                (Nat.lt_of_lt_of_le hvlt (Nat.pow_le_pow_right (by omega) (by omega)))
          have hsub : numBits + j - numBits = j := by omega
          simp [hj32, hvb, hsub]
        by_cases h0 : b.bitsLeftInNextByte - numBits = 0
        · rw [if_pos h0]
          have hnb : numBits = b.bitsLeftInNextByte := by omega
          constructor
          · refine ⟨?_, show (1 : Nat) ≤ 8 by omega, show (8 : Nat) ≤ 8 by omega⟩
            intro a ha
            rcases List.mem_append.mp ha with ha | ha
            · exact hout a ha
            · rcases List.mem_singleton.mp ha with rfl
              exact Nat.mod_lt _ (by omega)
          · rw [builderBits, builderBits]
            dsimp only
            rw [bytesToBits_append]
            have hsingle :
                bytesToBits [(((b.nextByte <<< numBits) % 2 ^ 32) ||| value) % 256]
                  = toBits 8 ((((b.nextByte <<< numBits) % 2 ^ 32) ||| value) % 256) := by
              simp [bytesToBits]
            have hkey : toBits 8 (((b.nextByte <<< numBits) % 2 ^ 32) ||| value)
                = toBits (8 - b.bitsLeftInNextByte) b.nextByte ++ toBits numBits value := by
              have hsplit := toBits_add_split (8 - b.bitsLeftInNextByte) numBits
                (((b.nextByte <<< numBits) % 2 ^ 32) ||| value)
              rw [show 8 - b.bitsLeftInNextByte + numBits = 8 by omega] at hsplit
              rw [hsplit, hlow, hhigh]
            rw [hsingle, show (256 : Nat) = 2 ^ 8 from rfl, toBits_mod, hkey, Nat.sub_self,
              show toBits 0 0 = ([] : List Bool) from rfl, List.append_nil, List.append_assoc]
        · rw [if_neg h0]
          constructor
          · exact ⟨hout, show 1 ≤ b.bitsLeftInNextByte - numBits by omega,
              show b.bitsLeftInNextByte - numBits ≤ 8 by omega⟩
          · rw [builderBits, builderBits]
            dsimp only
            rw [show 8 - (b.bitsLeftInNextByte - numBits)
                = (8 - b.bitsLeftInNextByte) + numBits by omega,
              toBits_add_split, hlow, hhigh, List.append_assoc]
      · rw [dif_neg h1, dif_neg (show ¬ b.bitsLeftInNextByte = 0 by omega)]
        have hmask : (0xFF : Nat) >>> (8 - b.bitsLeftInNextByte)
            = 2 ^ b.bitsLeftInNextByte - 1 := by
          set k := b.bitsLeftInNextByte with hk
          interval_cases k <;> rfl
        have hvnow : (value >>> (numBits - b.bitsLeftInNextByte)) &&&
              (0xFF >>> (8 - b.bitsLeftInNextByte))
            = (value / 2 ^ (numBits - b.bitsLeftInNextByte)) % 2 ^ b.bitsLeftInNextByte := by
          rw [hmask, Nat.and_pow_two_sub_one_eq_mod, Nat.shiftRight_eq_div_pow]
        obtain ⟨hinv1, hbits1⟩ := ih b.bitsLeftInNextByte (by omega) b
          ((value >>> (numBits - b.bitsLeftInNextByte)) &&&
            (0xFF >>> (8 - b.bitsLeftInNextByte)))
          ⟨hout, hbl1, hbl8⟩
          (Or.inr (by rw [hvnow]; exact Nat.mod_lt _ (Nat.pos_pow_of_pos _ (by omega))))
        have hb1bl : (b.write
            ((value >>> (numBits - b.bitsLeftInNextByte)) &&&
              (0xFF >>> (8 - b.bitsLeftInNextByte)))
            b.bitsLeftInNextByte).bitsLeftInNextByte = 8 := by
          rw [write, dif_pos le_rfl, if_pos (Nat.sub_self _)]
        obtain ⟨hinv2, hbits2⟩ := ih (numBits - b.bitsLeftInNextByte) (by omega) _ value hinv1
          (Or.inl hb1bl)
        refine ⟨hinv2, ?_⟩
        rw [hbits2, hbits1, List.append_assoc]
        congr 1
        have hsplit := toBits_add_split b.bitsLeftInNextByte (numBits - b.bitsLeftInNextByte)
          value
        rw [show b.bitsLeftInNextByte + (numBits - b.bitsLeftInNextByte) = numBits
          by omega] at hsplit
        rw [hsplit]
        congr 1
        rw [hvnow, toBits_mod]

end BitSourceBuilder

lemma getD_eq_getElem_of_lt {l : List Nat} {i : Nat} (h : i < l.length) :
    l.getD i 0 = l[i] := by
  rw [List.getD_eq_getElem?_getD, List.getElem?_eq_getElem h]
  rfl

lemma drop_byte_cons (bytes : List Nat) (bo : Nat) (hbo : bo < bytes.length) :
    (bytesToBits bytes).drop (8 * bo)
      = toBits 8 (bytes.getD bo 0) ++ (bytesToBits bytes).drop (8 * (bo + 1)) := by
  rw [drop_bytesToBits bytes bo, drop_bytesToBits bytes (bo + 1),
    List.drop_eq_getElem_cons hbo, bytesToBits, List.flatMap_cons, ← bytesToBits,
    getD_eq_getElem_of_lt hbo]

lemma drop_take_toBits_eight (b u t : Nat) (hut : u + t ≤ 8) :
    ((toBits 8 b).drop u).take t = toBits t (b / 2 ^ (8 - u - t)) := by
  have h1 : toBits 8 b = toBits u (b / 2 ^ (8 - u)) ++ toBits (8 - u) b := by
    have h := toBits_add_split u (8 - u) b
    rw [show u + (8 - u) = 8 by omega] at h
    exact h
  rw [h1, List.drop_append_eq_append_drop,
    List.drop_eq_nil_of_le (by simp [length_toBits]), List.nil_append, length_toBits,
    Nat.sub_self, List.drop_zero]
  have h2 := toBits_add_split t (8 - u - t) b
  rw [show t + (8 - u - t) = 8 - u by omega] at h2
  rw [h2, List.take_append_of_le_length (by simp [length_toBits]),
    List.take_of_length_le (by simp [length_toBits])]

lemma slice_in_byte (bytes : List Nat) (pos t : Nat) (hbo : pos / 8 < bytes.length)
    (ht : pos % 8 + t ≤ 8) :
    ((bytesToBits bytes).drop pos).take t
      = toBits t (bytes.getD (pos / 8) 0 / 2 ^ (8 - pos % 8 - t)) := by
  have h1 : (bytesToBits bytes).drop pos
      = ((bytesToBits bytes).drop (8 * (pos / 8))).drop (pos % 8) := by
    rw [List.drop_drop]
    congr 1
    omega
  rw [h1, drop_byte_cons bytes _ hbo, List.drop_append_eq_append_drop, length_toBits,
    show pos % 8 - 8 = 0 by omega, List.drop_zero,
    List.take_append_of_le_length (by rw [List.length_drop, length_toBits]; omega),
    drop_take_toBits_eight _ _ _ (by omega)]

lemma natOfBits_slice_in_byte (bytes : List Nat) (pos t : Nat) (hbo : pos / 8 < bytes.length)
    (ht : pos % 8 + t ≤ 8) :
    natOfBits (((bytesToBits bytes).drop pos).take t)
      = (bytes.getD (pos / 8) 0 / 2 ^ (8 - pos % 8 - t)) % 2 ^ t := by
  rw [slice_in_byte bytes pos t hbo ht, natOfBits_toBits]

namespace BitSource

lemma readBits_loop_spec (bytes : List Nat) (hb : ∀ a ∈ bytes, a < 256) :
    ∀ num_bits result byte_offset, byte_offset + num_bits / 8 ≤ bytes.length →
      readBits_loop bytes result byte_offset num_bits
        = (result * 2 ^ (8 * (num_bits / 8))
            + natOfBits (((bytesToBits bytes).drop (8 * byte_offset)).take (8 * (num_bits / 8))),
           byte_offset + num_bits / 8, num_bits % 8) := by
  intro num_bits
  induction num_bits using Nat.strong_induction_on with
  | _ num_bits ih =>
      intro result byte_offset hlen
      rw [readBits_loop]
      by_cases h8 : num_bits ≥ 8
      · rw [if_pos h8]
        have hbo : byte_offset < bytes.length := by omega
        have hbyte : bytes.getD byte_offset 0 < 256 := hb _ (getD_mem hbo)
        rw [ih (num_bits - 8) (by omega) _ _ (by omega)]
        have hlor : (result <<< 8) ||| bytes.getD byte_offset 0
            = result * 2 ^ 8 + bytes.getD byte_offset 0 := lor_shiftLeft_eq_add (by omega)
        rw [hlor]
        have hseg : ((bytesToBits bytes).drop (8 * byte_offset)).take (8 * (num_bits / 8))
            = toBits 8 (bytes.getD byte_offset 0)
              ++ ((bytesToBits bytes).drop (8 * (byte_offset + 1))).take
                  (8 * ((num_bits - 8) / 8)) := by
          rw [drop_byte_cons bytes byte_offset hbo, List.take_append_eq_append_take,
            List.take_of_length_le (by rw [length_toBits]; omega), length_toBits]
          congr 2
          omega
        have hlen8 : (((bytesToBits bytes).drop (8 * (byte_offset + 1))).take
            (8 * ((num_bits - 8) / 8))).length = 8 * ((num_bits - 8) / 8) := by
          rw [List.length_take, List.length_drop, length_bytesToBits]
          omega
        rw [hseg, natOfBits_append, hlen8]
        have hn8 : natOfBits (toBits 8 (bytes.getD byte_offset 0))
            = bytes.getD byte_offset 0 := by
          rw [natOfBits_toBits]
          exact Nat.mod_eq_of_lt (by omega)
        rw [hn8]
        have hq : 8 * (num_bits / 8) = 8 + 8 * ((num_bits - 8) / 8) := by omega
        simp only [Prod.mk.injEq]
        refine ⟨?_, by omega, by omega⟩
        rw [hq, pow_add]
        ring
      · rw [if_neg h8]
        have hq0 : num_bits / 8 = 0 := by omega
        have hm0 : num_bits % 8 = num_bits := by omega
        rw [hq0, hm0]
        simp [natOfBits]

lemma readBits_tail_spec (bytes : List Nat) (hb : ∀ a ∈ bytes, a < 256)
    (result byte_offset bit_offset num_bits : Nat)
    (hlen : 8 * byte_offset + num_bits ≤ 8 * bytes.length) :
    readBits_tail bytes result byte_offset bit_offset num_bits
      = (result * 2 ^ num_bits
          + natOfBits (((bytesToBits bytes).drop (8 * byte_offset)).take num_bits),
         ⟨bytes, byte_offset + num_bits / 8, bit_offset + num_bits % 8⟩) := by
  rw [readBits_tail]
  by_cases hpos : num_bits > 0
  · rw [if_pos hpos]
    rw [readBits_loop_spec bytes hb num_bits result byte_offset (by omega)]
    dsimp only
    by_cases ht : num_bits % 8 > 0
    · rw [if_pos ht]
      have hbo : byte_offset + num_bits / 8 < bytes.length := by omega
      have hbyte : bytes.getD (byte_offset + num_bits / 8) 0 < 256 := hb _ (getD_mem hbo)
      have hmask := mask_extract (bytes.getD (byte_offset + num_bits / 8) 0) (num_bits % 8)
        (8 - num_bits % 8) (by omega)
      rw [hmask]
      have hv3lt : bytes.getD (byte_offset + num_bits / 8) 0 / 2 ^ (8 - num_bits % 8)
          % 2 ^ (num_bits % 8) < 2 ^ (num_bits % 8) :=
        Nat.mod_lt _ (Nat.pos_pow_of_pos _ (by omega))
      rw [lor_shiftLeft_eq_add hv3lt]
      have hv3pos : (8 * (byte_offset + num_bits / 8)) / 8 = byte_offset + num_bits / 8 := by
        omega
      have hv3bits : bytes.getD (byte_offset + num_bits / 8) 0 / 2 ^ (8 - num_bits % 8)
            % 2 ^ (num_bits % 8)
          = natOfBits (((bytesToBits bytes).drop (8 * (byte_offset + num_bits / 8))).take
              (num_bits % 8)) := by
        have hd : 8 * (byte_offset + num_bits / 8) / 8 = byte_offset + num_bits / 8 := by
          omega
        have hm : 8 * (byte_offset + num_bits / 8) % 8 = 0 := by omega
        rw [natOfBits_slice_in_byte bytes (8 * (byte_offset + num_bits / 8)) (num_bits % 8)
          (by omega) (by omega), hd, hm, Nat.sub_zero]
      rw [hv3bits]
      have htake : ((bytesToBits bytes).drop (8 * byte_offset)).take num_bits
          = ((bytesToBits bytes).drop (8 * byte_offset)).take (8 * (num_bits / 8))
            ++ ((bytesToBits bytes).drop (8 * (byte_offset + num_bits / 8))).take
                (num_bits % 8) := by
        conv_lhs => rw [show num_bits = 8 * (num_bits / 8) + num_bits % 8 by omega]
        have hdd : 8 * byte_offset + 8 * (num_bits / 8)
            = 8 * (byte_offset + num_bits / 8) := by omega
        rw [List.take_add, List.drop_drop, hdd]
      rw [htake, natOfBits_append]
      have hlen3 : (((bytesToBits bytes).drop (8 * (byte_offset + num_bits / 8))).take
          (num_bits % 8)).length = num_bits % 8 := by
        rw [List.length_take, List.length_drop, length_bytesToBits]
        omega
      rw [hlen3]
      have hpow : (2 : Nat) ^ num_bits = 2 ^ (8 * (num_bits / 8)) * 2 ^ (num_bits % 8) := by
        rw [← pow_add]
        congr 1
        omega
      rw [hpow]
      ring
    · rw [if_neg ht]
      have hq : 8 * (num_bits / 8) = num_bits := by omega
      rw [hq, show num_bits % 8 = 0 by omega, Nat.add_zero]
  · rw [if_neg hpos]
    have hz : num_bits = 0 := by omega
    subst hz
    simp [natOfBits]

lemma readBits_spec (bytes : List Nat) (hb : ∀ a ∈ bytes, a < 256) (pos n : Nat)
    (hn1 : 1 ≤ n) (hn32 : n ≤ 32) (hpos : pos + n ≤ 8 * bytes.length) :
    BitSource.readBits ⟨bytes, pos / 8, pos % 8⟩ n
      = Except.ok (natOfBits (((bytesToBits bytes).drop pos).take n),
             (⟨bytes, (pos + n) / 8, (pos + n) % 8⟩ : BitSource)) := by
  have hguard : ¬(¬(1 ≤ n ∧ n ≤ 32) ∨
      n > available ⟨bytes, pos / 8, pos % 8⟩) := by
    rw [available]
    dsimp only
    omega
  rw [readBits, if_neg hguard]
  by_cases hu : pos % 8 > 0
  · rw [if_pos (show (⟨bytes, pos / 8, pos % 8⟩ : BitSource).bit_offset > 0 from hu)]
    dsimp only
    have hbo : pos / 8 < bytes.length := by omega
    have hr1 : (bytes.getD (pos / 8) 0 &&&
          ((0xFF >>> (8 - min n (8 - pos % 8))) <<< (8 - pos % 8 - min n (8 - pos % 8))))
          >>> (8 - pos % 8 - min n (8 - pos % 8))
        = natOfBits (((bytesToBits bytes).drop pos).take (min n (8 - pos % 8))) := by
      rw [mask_extract (bytes.getD (pos / 8) 0) (min n (8 - pos % 8))
        (8 - pos % 8 - min n (8 - pos % 8)) (by omega)]
      exact (natOfBits_slice_in_byte bytes pos (min n (8 - pos % 8)) hbo (by omega)).symm
    by_cases hcase : pos % 8 + min n (8 - pos % 8) = 8
    · rw [if_pos hcase, hr1]
      rw [readBits_tail_spec bytes hb
        (natOfBits (((bytesToBits bytes).drop pos).take (min n (8 - pos % 8))))
        (pos / 8 + 1) 0 (n - min n (8 - pos % 8)) (by omega)]
      have htake : ((bytesToBits bytes).drop pos).take n
          = ((bytesToBits bytes).drop pos).take (min n (8 - pos % 8))
            ++ ((bytesToBits bytes).drop (8 * (pos / 8 + 1))).take
                (n - min n (8 - pos % 8)) := by
        conv_lhs => rw [show n = min n (8 - pos % 8) + (n - min n (8 - pos % 8)) by omega]
        have hdd : pos + min n (8 - pos % 8) = 8 * (pos / 8 + 1) := by omega
        rw [List.take_add, List.drop_drop, hdd]
      have hlen2 : (((bytesToBits bytes).drop (8 * (pos / 8 + 1))).take
          (n - min n (8 - pos % 8))).length = n - min n (8 - pos % 8) := by
        rw [List.length_take, List.length_drop, length_bytesToBits]
        omega
      rw [htake, natOfBits_append, hlen2]
      have h2 : pos / 8 + 1 + (n - min n (8 - pos % 8)) / 8 = (pos + n) / 8 := by omega
      have h3 : 0 + (n - min n (8 - pos % 8)) % 8 = (pos + n) % 8 := by omega
      rw [h2, h3]
    · rw [if_neg hcase, hr1]
      rw [readBits_tail_spec bytes hb
        (natOfBits (((bytesToBits bytes).drop pos).take (min n (8 - pos % 8))))
        (pos / 8) (pos % 8 + min n (8 - pos % 8)) (n - min n (8 - pos % 8)) (by omega)]
      have htn : min n (8 - pos % 8) = n := by omega
      rw [htn, Nat.sub_self]
      have h2 : pos / 8 + 0 / 8 = (pos + n) / 8 := by omega
      have h3 : pos % 8 + n + 0 % 8 = (pos + n) % 8 := by omega
      rw [h2, h3]
      simp [natOfBits]
  · rw [if_neg (show ¬((⟨bytes, pos / 8, pos % 8⟩ : BitSource).bit_offset > 0) from hu)]
    rw [readBits_tail_spec bytes hb 0 (pos / 8) (pos % 8) n (by omega)]
    have h8q : 8 * (pos / 8) = pos := by omega
    have h2 : pos / 8 + n / 8 = (pos + n) / 8 := by omega
    have h3 : pos % 8 + n % 8 = (pos + n) % 8 := by omega
    rw [h8q, h2, h3, Nat.zero_mul, Nat.zero_add]

end BitSource

/-- Run a schedule of `BitSource::readBits` calls in order, collecting the
values read; the first failing read aborts the schedule with its error. -/
def readSchedule : BitSource → List Nat → Except Exceptions (List Nat × BitSource)
  | s, [] => Except.ok ([], s)
  | s, n :: rest =>
    match s.readBits n with
    | Except.error e => Except.error e
    | Except.ok (v, s') =>
      match readSchedule s' rest with
      | Except.error e => Except.error e
      | Except.ok (vs, s'') => Except.ok (v :: vs, s'')

/-- Run a schedule of `BitSourceBuilder::write` calls in order, one
(value, bit count) pair at a time. -/
def writeSchedule : BitSourceBuilder → List (Nat × Nat) → BitSourceBuilder
  | b, [] => b
  | b, (v, n) :: rest => writeSchedule (b.write v n) rest

namespace BitSourceBuilder

lemma BInv_new : BInv new := by
  refine ⟨fun a ha => ?_, by norm_num [new], by norm_num [new]⟩
  simp [new] at ha

lemma builderBits_new : builderBits new = [] := by
  simp [builderBits, new, bytesToBits, toBits]

end BitSourceBuilder

lemma roundtrip_aux (bytes : List Nat) (hby : ∀ a ∈ bytes, a < 256) :
    ∀ (counts : List Nat) (pos : Nat) (b : BitSourceBuilder),
      (∀ c ∈ counts, 1 ≤ c ∧ c ≤ 32) →
      pos + counts.sum ≤ 8 * bytes.length →
      BitSourceBuilder.BInv b →
      BitSourceBuilder.builderBits b = (bytesToBits bytes).take pos →
      ∃ values : List Nat,
        readSchedule ⟨bytes, pos / 8, pos % 8⟩ counts
          = Except.ok (values,
              ⟨bytes, (pos + counts.sum) / 8, (pos + counts.sum) % 8⟩) ∧
        BitSourceBuilder.BInv (writeSchedule b (values.zip counts)) ∧
        BitSourceBuilder.builderBits (writeSchedule b (values.zip counts))
          = (bytesToBits bytes).take (pos + counts.sum) := by
  intro counts
  induction counts with
  | nil =>
      intro pos b hc hsum hinv hbits
      refine ⟨[], ?_, ?_, ?_⟩
      · rw [readSchedule]
        simp
      · exact hinv
      · rw [List.zip_nil_right, writeSchedule, hbits, List.sum_nil, Nat.add_zero]
  | cons c rest ih =>
      intro pos b hc hsum hinv hbits
      have hs : (c :: rest).sum = c + rest.sum := List.sum_cons
      obtain ⟨hc1, hc32⟩ := hc c (List.mem_cons_self c rest)
      have hrest : ∀ x ∈ rest, 1 ≤ x ∧ x ≤ 32 :=
        fun x hx => hc x (List.mem_cons_of_mem _ hx)
      have hslice_len : (((bytesToBits bytes).drop pos).take c).length = c := by
        rw [List.length_take, List.length_drop, length_bytesToBits]
        omega
      have hv : natOfBits (((bytesToBits bytes).drop pos).take c) < 2 ^ c := by
        have h := natOfBits_lt (((bytesToBits bytes).drop pos).take c)
        rwa [hslice_len] at h
      have hread := BitSource.readBits_spec bytes hby pos c hc1 hc32 (by omega)
      obtain ⟨hinv', hbits'⟩ := BitSourceBuilder.write_spec c b
        (natOfBits (((bytesToBits bytes).drop pos).take c)) hinv (Or.inr hv)
      have hbits'' : BitSourceBuilder.builderBits
            (b.write (natOfBits (((bytesToBits bytes).drop pos).take c)) c)
          = (bytesToBits bytes).take (pos + c) := by
        rw [hbits', hbits, List.take_add]
        congr 1
        have h := toBits_natOfBits (((bytesToBits bytes).drop pos).take c)
        rwa [hslice_len] at h
      obtain ⟨values, hreadrest, hinvf, hbitsf⟩ := ih (pos + c) _ hrest (by omega) hinv' hbits''
      refine ⟨natOfBits (((bytesToBits bytes).drop pos).take c) :: values, ?_, ?_, ?_⟩
      · rw [readSchedule, hread]
        dsimp only
        rw [hreadrest]
        dsimp only
        rw [hs, show pos + (c + rest.sum) = pos + c + rest.sum from (Nat.add_assoc pos c rest.sum).symm]
      · rw [show (natOfBits (((bytesToBits bytes).drop pos).take c) :: values).zip (c :: rest)
            = (natOfBits (((bytesToBits bytes).drop pos).take c), c) :: values.zip rest
          from rfl, writeSchedule]
        exact hinvf
      · rw [show (natOfBits (((bytesToBits bytes).drop pos).take c) :: values).zip (c :: rest)
            = (natOfBits (((bytesToBits bytes).drop pos).take c), c) :: values.zip rest
          from rfl, writeSchedule, hbitsf, hs,
          show pos + (c + rest.sum) = pos + c + rest.sum from (Nat.add_assoc pos c rest.sum).symm]

/-- Modelled from the spec: a 2-D point with `f32` coordinates (spec §3);
floats are modelled exactly as rationals. -/
structure Point where
  x : ℚ
  y : ℚ
  deriving DecidableEq, Repr

/-- Modelled from the spec: the free `point` constructor. -/
def point (x y : ℚ) : Point := ⟨x, y⟩

namespace Point

/-- Modelled from the spec: `Point::default()` is the origin. -/
def default : Point := ⟨0, 0⟩

/-- Modelled from the spec (§4.7): `centered` maps a cell coordinate to the
cell center, adding 0.5 to each coordinate. -/
def centered (p : Point) : Point := ⟨p.x + 1 / 2, p.y + 1 / 2⟩

/-- Modelled from the spec: componentwise `+` on points. -/
def add (p q : Point) : Point := ⟨p.x + q.x, p.y + q.y⟩

end Point

/-- Modelled from the spec (§4.7): the perspective transform carried by a
`SamplerControl`, abstracted as the point map it denotes (`transform_point`)
together with the validity flag tested by `isValid`. -/
structure PTransform where
  map : Point → Point
  valid : Bool

/-- Modelled from the spec (§4.7): `SamplerControl { p0, p1, transform }`, a
rectangle [p0, p1) in output coordinates with its output→image transform. -/
structure SamplerControl where
  p0 : Point
  p1 : Point
  transform : PTransform

/-- Rust `as u32` applied to an `f32` (modelled as a rational): saturating
truncation toward zero. -/
def ratToU32 (q : ℚ) : Nat :=
  if q ≤ 0 then 0 else min (Int.floor q).toNat (2 ^ 32 - 1)

/-- Rust `as i32` applied to an `f32` (modelled as a rational): saturating
truncation toward zero. -/
def ratToI32 (q : ℚ) : Int :=
  max (-(2 ^ 31)) (min (if q < 0 then -Int.floor (-q) else Int.floor q) (2 ^ 31 - 1))

/-- Rust `as u32` applied to an `i32`: wrapping cast. -/
def intToU32 (x : Int) : Nat := (x % 2 ^ 32).toNat

/-- The integers of `a..b` in order (a Rust `Range<i32>` loop). -/
def intRange (a b : Int) : List Int :=
  (List.range (b - a).toNat).map fun (i : Nat) => a + (i : Int)

namespace BitMatrix

/-- `BitMatrix::isIn`: the point is at least `b` away from every border. -/
def isIn (m : BitMatrix) (p : Point) (b : Int) : Bool :=
  decide ((b : ℚ) ≤ p.x) && decide (p.x < (m.width : ℚ) - (b : ℚ))
    && decide ((b : ℚ) ≤ p.y) && decide (p.y < (m.height : ℚ) - (b : ℚ))

/-- `BitMatrix::is_in`: `isIn` with border 0. -/
def is_in (m : BitMatrix) (p : Point) : Bool := m.isIn p 0

/-- `BitMatrix::get_point`: `get` at the `as u32`-cast coordinates. -/
def get_point (m : BitMatrix) (p : Point) : Bool :=
  m.get (ratToU32 p.x) (ratToU32 p.y)

end BitMatrix

/-- Fold a fallible step over a list, keeping the first error (the shape of
every early-`return Err` loop in `sample_grid`). -/
def foldExcept {α β : Type} (f : β → α → Except Exceptions β) (init : β) (l : List α) :
    Except Exceptions β :=
  l.foldl (fun acc a =>
    match acc with
    | Except.error e => Except.error e
    | Except.ok b => f b a) (Except.ok init)

/-- The corner precheck `sample_grid` runs for one control: the transform is
valid and the four corners of the ROI (the far ones pulled in by 1) map
inside the image once centered. -/
def controlPrecheckOk (image : BitMatrix) (c : SamplerControl) : Bool :=
  c.transform.valid
    && image.is_in (c.transform.map (Point.centered (point c.p0.x c.p0.y)))
    && image.is_in (c.transform.map (Point.centered (point (c.p1.x - 1) c.p0.y)))
    && image.is_in (c.transform.map (Point.centered (point (c.p1.x - 1) (c.p1.y - 1))))
    && image.is_in (c.transform.map (Point.centered (point c.p0.x (c.p1.y - 1))))

/-- The precheck loop of `sample_grid`: the first control failing its corner
precheck aborts with NotFound. -/
def precheckControls (image : BitMatrix) (controls : List SamplerControl) :
    Except Exceptions Unit :=
  foldExcept (fun _ c =>
      if controlPrecheckOk image c then Except.ok ()
      else Except.error (Exceptions.notFound ""))
    () controls

/-- The sampling double loop of `sample_grid` for one control: for each cell
of the ROI (row-major), read the image bit at the transformed cell center
and set the output bit accordingly, then fail with NotFound if that center
is outside the image (the source sets before checking; the updated matrix is
discarded on the error path). -/
def sampleControlBits (image : BitMatrix) (bits : BitMatrix) (c : SamplerControl) :
    Except Exceptions BitMatrix :=
  foldExcept (fun bits (y : Int) =>
      foldExcept (fun bits (x : Int) =>
          let p := c.transform.map (Point.centered (point (x : ℚ) (y : ℚ)))
          let bits' := if image.get_point p then bits.set (intToU32 x) (intToU32 y) else bits
          if image.is_in p then Except.ok bits' else Except.error (Exceptions.notFound ""))
        bits (intRange (ratToI32 c.p0.x) (ratToI32 c.p1.x)))
    bits (intRange (ratToI32 c.p0.y) (ratToI32 c.p1.y))

/-- The `projectCorner` closure of `sample_grid`: the first control whose ROI
contains the corner projects it and adds the half-pixel offset; with no
match the origin is returned. -/
def projectCorner (controls : List SamplerControl) (p : Point) : Point :=
  match controls.find? (fun c =>
      decide (c.p0.x ≤ p.x) && decide (p.x ≤ c.p1.x)
        && decide (c.p0.y ≤ p.y) && decide (p.y ≤ c.p1.y)) with
  | some c => Point.add (c.transform.map p) (point (1 / 2) (1 / 2))
  | none => Point.default

/-- `DefaultGridSampler::sample_grid` (src/common/default_grid_sampler.rs):
zero output dimensions fail with NotFound; every control must pass its
corner precheck (else NotFound); every ROI cell of every control is sampled
(possibly failing NotFound); finally the four corners `(0, 0)`,
`(dimensionX, 0)`, `(dimensionX, dimensionY)` and `(0, dimensionX)` (sic:
the source uses dimensionX in the last corner's y slot) are projected. -/
def sample_grid (image : BitMatrix) (dimensionX dimensionY : Nat)
    (controls : List SamplerControl) :
    Except Exceptions (BitMatrix × (Point × Point × Point × Point)) :=
  if dimensionX = 0 ∨ dimensionY = 0 then
    Except.error (Exceptions.notFound "")
  else
    match precheckControls image controls with
    | Except.error e => Except.error e
    | Except.ok _ =>
      match BitMatrix.new dimensionX dimensionY with
      | Except.error e => Except.error e
      | Except.ok bits0 =>
        match foldExcept (fun bits c => sampleControlBits image bits c) bits0 controls with
        | Except.error e => Except.error e
        | Except.ok bits =>
          Except.ok (bits,
            (projectCorner controls (point 0 0),
             projectCorner controls (point (dimensionX : ℚ) 0),
             projectCorner controls (point (dimensionX : ℚ) (dimensionY : ℚ)),
             projectCorner controls (point 0 (dimensionX : ℚ))))

lemma foldl_congr_mem {α β : Type} (f g : α → β → α) :
    ∀ (l : List β), (∀ a b, b ∈ l → f a b = g a b) → ∀ init, l.foldl f init = l.foldl g init := by
  intro l
  induction l with
  | nil => intro h init; rfl
  | cons b t ih =>
      intro h init
      rw [List.foldl_cons, List.foldl_cons, h _ _ (List.mem_cons_self _ _)]
      exact ih (fun a b' hb' => h a b' (List.mem_cons_of_mem _ hb')) _

lemma all_map_general {α β : Type} (f : α → β) (p : β → Bool) :
    ∀ l : List α, (l.map f).all p = l.all (fun a => p (f a)) := by
  intro l
  induction l with
  | nil => rfl
  | cons a t ih => rw [List.map_cons, List.all_cons, List.all_cons, ih]

lemma all_congr_mem {α : Type} (p q : α → Bool) :
    ∀ (l : List α), (∀ x ∈ l, p x = q x) → l.all p = l.all q := by
  intro l
  induction l with
  | nil => intro h; rfl
  | cons b t ih =>
      intro h
      rw [List.all_cons, List.all_cons, h _ (List.mem_cons_self _ _),
        ih (fun x hx => h x (List.mem_cons_of_mem _ hx))]

lemma foldExcept_error_absorb {α β : Type} (f : β → α → Except Exceptions β) (e : Exceptions) :
    ∀ (l : List α),
      l.foldl (fun acc a => match acc with
        | Except.error e' => Except.error e'
        | Except.ok b => f b a) (Except.error e) = Except.error e := by
  intro l
  induction l with
  | nil => rfl
  | cons a t ih => rw [List.foldl_cons]; exact ih

lemma foldExcept_cons {α β : Type} (f : β → α → Except Exceptions β) (init : β) (a : α)
    (t : List α) :
    foldExcept f init (a :: t)
      = match f init a with
        | Except.error e => Except.error e
        | Except.ok b => foldExcept f b t := by
  rw [foldExcept, List.foldl_cons]
  cases hfa : f init a with
  | error e =>
      show List.foldl _ (f init a) t = _
      rw [hfa]
      exact foldExcept_error_absorb f e t
  | ok b =>
      show List.foldl _ (f init a) t = _
      rw [hfa]
      rfl

lemma foldExcept_congr {α β : Type} (f g : β → α → Except Exceptions β) (l : List α) (init : β)
    (h : ∀ b a, f b a = g b a) : foldExcept f init l = foldExcept g init l := by
  rw [foldExcept, foldExcept]
  exact foldl_congr_mem _ _ l (fun acc a _ => by cases acc <;> simp [h]) _

lemma foldExcept_cond {α β : Type} (cond : α → Bool) (g : β → α → β) (e : Exceptions) :
    ∀ (l : List α) (init : β),
      foldExcept (fun b a => if cond a then Except.ok (g b a) else Except.error e) init l
        = if l.all cond then Except.ok (l.foldl g init) else Except.error e := by
  intro l
  induction l with
  | nil => intro init; rfl
  | cons a t ih =>
      intro init
      rw [foldExcept_cons, List.all_cons, List.foldl_cons]
      by_cases hc : cond a = true
      · rw [hc]
        show foldExcept _ (g init a) t = _
        rw [ih (g init a)]
        simp
      · rw [Bool.not_eq_true] at hc
        rw [hc]
        show Except.error e = _
        simp

lemma ratToI32_zero : ratToI32 0 = 0 := by
  rw [ratToI32, if_neg (by norm_num)]
  norm_num

lemma ratToI32_natCast (n : Nat) (h : n < 2 ^ 31) : ratToI32 (n : ℚ) = (n : Int) := by
  rw [ratToI32, if_neg (not_lt.mpr (by positivity)), Int.floor_natCast]
  omega

lemma intToU32_natCast (i : Nat) (h : i < 2 ^ 32) : intToU32 (i : Int) = i := by
  rw [intToU32]
  omega

lemma intRange_ratToI32_cast (n : Nat) (h : n < 2 ^ 31) :
    intRange (ratToI32 0) (ratToI32 (n : ℚ))
      = (List.range n).map (fun (i : Nat) => (i : Int)) := by
  rw [ratToI32_zero, ratToI32_natCast n h, intRange, Int.sub_zero, Int.toNat_natCast]
  apply List.map_congr_left
  intro i _
  omega

lemma sampleControlBits_spec (image bits : BitMatrix) (c : SamplerControl) :
    sampleControlBits image bits c
      = if (intRange (ratToI32 c.p0.y) (ratToI32 c.p1.y)).all (fun (y : Int) =>
            (intRange (ratToI32 c.p0.x) (ratToI32 c.p1.x)).all (fun (x : Int) =>
              image.is_in (c.transform.map (Point.centered (point (x : ℚ) (y : ℚ))))))
        then Except.ok ((intRange (ratToI32 c.p0.y) (ratToI32 c.p1.y)).foldl (fun b (y : Int) =>
            (intRange (ratToI32 c.p0.x) (ratToI32 c.p1.x)).foldl (fun b (x : Int) =>
              if image.get_point (c.transform.map (Point.centered (point (x : ℚ) (y : ℚ))))
              then b.set (intToU32 x) (intToU32 y) else b) b) bits)
        else Except.error (Exceptions.notFound "") := by
  have h1 : sampleControlBits image bits c
      = foldExcept (fun (b : BitMatrix) (y : Int) =>
          if (intRange (ratToI32 c.p0.x) (ratToI32 c.p1.x)).all (fun (x : Int) =>
              image.is_in (c.transform.map (Point.centered (point (x : ℚ) (y : ℚ))))) then
            Except.ok ((intRange (ratToI32 c.p0.x) (ratToI32 c.p1.x)).foldl (fun b (x : Int) =>
              if image.get_point (c.transform.map (Point.centered (point (x : ℚ) (y : ℚ))))
              then b.set (intToU32 x) (intToU32 y) else b) b)
          else Except.error (Exceptions.notFound ""))
        bits (intRange (ratToI32 c.p0.y) (ratToI32 c.p1.y)) :=
    foldExcept_congr _ _ _ _ (fun b y => foldExcept_cond _ _ _ _ b)
  rw [h1]
  exact foldExcept_cond _ _ _ _ bits

lemma sampleControlBits_full (image bits : BitMatrix) (W H : Nat) (t : PTransform)
    (hW31 : W < 2 ^ 31) (hH31 : H < 2 ^ 31) :
    sampleControlBits image bits ⟨point 0 0, point (W : ℚ) (H : ℚ), t⟩
      = if (List.range H).all (fun (y : Nat) => (List.range W).all (fun (x : Nat) =>
            image.is_in (t.map (Point.centered (point (x : ℚ) (y : ℚ))))))
        then Except.ok ((List.range H).foldl (fun b (y : Nat) => (List.range W).foldl
            (fun b (x : Nat) =>
            if image.get_point (t.map (Point.centered (point (x : ℚ) (y : ℚ))))
            then b.set x y else b) b) bits)
        else Except.error (Exceptions.notFound "") := by
  rw [sampleControlBits_spec]
  have ep0x : (⟨point 0 0, point (W : ℚ) (H : ℚ), t⟩ : SamplerControl).p0.x = 0 := rfl
  have ep0y : (⟨point 0 0, point (W : ℚ) (H : ℚ), t⟩ : SamplerControl).p0.y = 0 := rfl
  have ep1x : (⟨point 0 0, point (W : ℚ) (H : ℚ), t⟩ : SamplerControl).p1.x = (W : ℚ) := rfl
  have ep1y : (⟨point 0 0, point (W : ℚ) (H : ℚ), t⟩ : SamplerControl).p1.y = (H : ℚ) := rfl
  have etr : (⟨point 0 0, point (W : ℚ) (H : ℚ), t⟩ : SamplerControl).transform = t := rfl
  rw [ep0x, ep0y, ep1x, ep1y, etr, intRange_ratToI32_cast W hW31, intRange_ratToI32_cast H hH31]
  rw [all_map_general, List.foldl_map]
  simp only [all_map_general, List.foldl_map, Int.cast_natCast]
  have hfold : ∀ b : BitMatrix,
      (List.range H).foldl (fun b (y : Nat) => (List.range W).foldl (fun b (x : Nat) =>
          if image.get_point (t.map (Point.centered (point (x : ℚ) (y : ℚ))))
          then b.set (intToU32 (x : Int)) (intToU32 (y : Int)) else b) b) b
        = (List.range H).foldl (fun b (y : Nat) => (List.range W).foldl (fun b (x : Nat) =>
            if image.get_point (t.map (Point.centered (point (x : ℚ) (y : ℚ))))
            then b.set x y else b) b) b := by
    intro b
    apply foldl_congr_mem _ _ _ (fun a y hy => ?_) b
    apply foldl_congr_mem _ _ _ (fun a' x hx => ?_) a
    rw [List.mem_range] at hy hx
    rw [intToU32_natCast x (by omega), intToU32_natCast y (by omega)]
  rw [hfold bits]

/-- The output matrix built by the sampling loop of `sample_grid` for the
single full-grid control covering `[0, W) × [0, H)`. -/
def gridBits (image : BitMatrix) (W H : Nat) (t : PTransform) : BitMatrix :=
  (List.range H).foldl (fun b (y : Nat) => (List.range W).foldl (fun b (x : Nat) =>
      if image.get_point (t.map (Point.centered (point (x : ℚ) (y : ℚ))))
      then b.set x y else b) b)
    { width := W, height := H, row_size := (W + BASE_BITS - 1) / BASE_BITS,
      bits := List.replicate ((W + BASE_BITS - 1) / BASE_BITS * H) 0 }

lemma foldl_set_guard (guard : Nat × Nat → Bool) :
    ∀ (ps : List (Nat × Nat)) (m0 : BitMatrix),
      ps.foldl (fun b p => if guard p then b.set p.2 p.1 else b) m0
        = { width := m0.width, height := m0.height, row_size := m0.row_size,
            bits := ps.foldl (fun nb p =>
              if guard p then nb.set (p.1 * m0.row_size + p.2 / BASE_BITS)
                (nb.getD (p.1 * m0.row_size + p.2 / BASE_BITS) 0
                  ||| (1 <<< (p.2 &&& BASE_SHIFT)))
              else nb) m0.bits } := by
  intro ps
  induction ps with
  | nil => intro m0; rfl
  | cons p tp ih =>
      intro m0
      rw [List.foldl_cons, List.foldl_cons]
      by_cases hg : guard p = true
      · rw [if_pos hg, if_pos hg, ih (m0.set p.2 p.1)]
        rfl
      · rw [if_neg hg, if_neg hg, ih m0]

lemma gridBits_eq (image : BitMatrix) (W H : Nat) (t : PTransform) :
    gridBits image W H t
      = { width := W, height := H, row_size := (W + BASE_BITS - 1) / BASE_BITS,
          bits := ((List.range H).flatMap fun y => (List.range W).map fun x => (y, x)).foldl
            (fun nb p =>
              if image.get_point (t.map (Point.centered (point (p.2 : ℚ) (p.1 : ℚ)))) then
                nb.set (p.1 * ((W + BASE_BITS - 1) / BASE_BITS) + p.2 / BASE_BITS)
                  (nb.getD (p.1 * ((W + BASE_BITS - 1) / BASE_BITS) + p.2 / BASE_BITS) 0
                    ||| (1 <<< (p.2 &&& BASE_SHIFT)))
              else nb)
            (List.replicate ((W + BASE_BITS - 1) / BASE_BITS * H) 0) } := by
  rw [gridBits, foldl_foldl_flatMap2
    (fun (b : BitMatrix) (y : Nat) (x : Nat) =>
      if image.get_point (t.map (Point.centered (point (x : ℚ) (y : ℚ))))
      then b.set x y else b),
    foldl_set_guard (fun p =>
      image.get_point (t.map (Point.centered (point (p.2 : ℚ) (p.1 : ℚ)))))]

lemma gridBits_testBit (image : BitMatrix) (W H : Nat) (t : PTransform) (k j : Nat) :
    (((gridBits image W H t).bits.getD k 0).testBit j = true)
      ↔ ∃ p : Nat × Nat, p.1 < H ∧ p.2 < W ∧
          image.get_point (t.map (Point.centered (point (p.2 : ℚ) (p.1 : ℚ)))) = true ∧
          p.1 * ((W + 31) / 32) + p.2 / 32 = k ∧ p.2 % 32 = j := by
  have hidx : ∀ p ∈ ((List.range H).flatMap fun y => (List.range W).map fun x => (y, x)),
      (p.1 * ((W + BASE_BITS - 1) / BASE_BITS) + p.2 / BASE_BITS)
        < (List.replicate ((W + BASE_BITS - 1) / BASE_BITS * H) 0).length := by
    intro p hp
    simp only [List.mem_flatMap, List.mem_map, List.mem_range] at hp
    obtain ⟨y, hy, x, hx, rfl⟩ := hp
    simp only [List.length_replicate, BASE_BITS]
    have hdiv : x / 32 < (W + 32 - 1) / 32 := by omega
    calc y * ((W + 32 - 1) / 32) + x / 32
        < y * ((W + 32 - 1) / 32) + (W + 32 - 1) / 32 := by omega
      _ = (y + 1) * ((W + 32 - 1) / 32) := by ring
      _ ≤ H * ((W + 32 - 1) / 32) := Nat.mul_le_mul_right _ (by omega)
      _ = (W + 32 - 1) / 32 * H := Nat.mul_comm _ _
  rw [gridBits_eq]
  dsimp only
  rw [testBit_foldl_orUpdate _ _ _ _ _ hidx]
  have hzero : ((List.replicate ((W + BASE_BITS - 1) / BASE_BITS * H) 0).getD k 0) = 0 := by
    rcases Nat.lt_or_ge k ((W + BASE_BITS - 1) / BASE_BITS * H) with h | h
    · rw [List.getD_eq_getElem?_getD, List.getElem?_replicate, if_pos (by simpa using h)]
      rfl
    · rw [List.getD_eq_getElem?_getD, List.getElem?_eq_none (by simpa using h)]
      rfl
  rw [hzero]
  simp only [Nat.zero_testBit, Bool.false_eq_true, List.mem_flatMap, List.mem_map,
    List.mem_range, BASE_BITS, BASE_SHIFT, false_or]
  constructor
  · rintro ⟨p, ⟨y, hy, x, hx, rfl⟩, hg, hik, hsj⟩
    refine ⟨(y, x), hy, hx, hg, ?_, ?_⟩
    · simpa using hik
    · rw [and_31_eq_mod] at hsj
      exact hsj
  · rintro ⟨p, h1, h2, hg, hik, hsj⟩
    refine ⟨p, ⟨p.1, h1, p.2, h2, rfl⟩, hg, ?_, ?_⟩
    · simpa using hik
    · rw [and_31_eq_mod]
      exact hsj

lemma gridBits_WF (image : BitMatrix) (W H : Nat) (t : PTransform)
    (hW : 0 < W) (hH : 0 < H) : (gridBits image W H t).WF := by
  rw [gridBits_eq]
  refine ⟨hW, hH, rfl, ?_⟩
  show List.length _ = _
  apply foldl_invariant
    (P := fun l : List Nat => l.length = (W + BASE_BITS - 1) / BASE_BITS * H)
  · simp
  · intro a b _ ha
    split
    · simpa using ha
    · exact ha

lemma gridBits_dims (image : BitMatrix) (W H : Nat) (t : PTransform) :
    (gridBits image W H t).width = W ∧ (gridBits image W H t).height = H := by
  rw [gridBits_eq]
  exact ⟨rfl, rfl⟩

lemma gridBits_get (image : BitMatrix) (W H : Nat) (t : PTransform)
    {x y : Nat} (hx : x < W) (hy : y < H) :
    (gridBits image W H t).get x y
      = image.get_point (t.map (Point.centered (point (x : ℚ) (y : ℚ)))) := by
  have hwf := gridBits_WF image W H t (by omega) (by omega)
  have hx' : x < (gridBits image W H t).width := by rw [(gridBits_dims image W H t).1]; exact hx
  have hy' : y < (gridBits image W H t).height := by rw [(gridBits_dims image W H t).2]; exact hy
  have hrs : (gridBits image W H t).row_size = (W + 31) / 32 := by
    rw [gridBits_eq]
    show (W + BASE_BITS - 1) / BASE_BITS = _
    simp only [BASE_BITS]
    omega
  rw [BitMatrix.get_eq_testBit _ hwf hx' hy', hrs, Bool.eq_iff_iff, gridBits_testBit]
  constructor
  · rintro ⟨p, hp1, hp2, hg, hik, hsj⟩
    have hb1 : p.2 / 32 < (W + 31) / 32 := by omega
    have hb2 : x / 32 < (W + 31) / 32 := by omega
    obtain ⟨hq, hr⟩ := mul_add_lt_unique hb1 hb2 hik
    have hp1y : p.1 = y := hq
    have hp2x : p.2 = x := by omega
    rw [hp1y, hp2x] at hg
    exact hg
  · intro hg
    exact ⟨(y, x), hy, hx, hg, rfl, rfl⟩

lemma foldExcept_singleton {α β : Type} (f : β → α → Except Exceptions β) (init : β) (a : α) :
    foldExcept f init [a] = f init a := rfl

lemma sample_grid_single (image : BitMatrix) (W H : Nat) (t : PTransform)
    (hW : 0 < W) (hH : 0 < H) (hW31 : W < 2 ^ 31) (hH31 : H < 2 ^ 31)
    (hpre : controlPrecheckOk image ⟨point 0 0, point (W : ℚ) (H : ℚ), t⟩ = true) :
    sample_grid image W H [⟨point 0 0, point (W : ℚ) (H : ℚ), t⟩]
      = if (List.range H).all (fun (y : Nat) => (List.range W).all (fun (x : Nat) =>
            image.is_in (t.map (Point.centered (point (x : ℚ) (y : ℚ))))))
        then Except.ok (gridBits image W H t,
            (projectCorner [⟨point 0 0, point (W : ℚ) (H : ℚ), t⟩] (point 0 0),
             projectCorner [⟨point 0 0, point (W : ℚ) (H : ℚ), t⟩] (point (W : ℚ) 0),
             projectCorner [⟨point 0 0, point (W : ℚ) (H : ℚ), t⟩] (point (W : ℚ) (H : ℚ)),
             projectCorner [⟨point 0 0, point (W : ℚ) (H : ℚ), t⟩] (point 0 (W : ℚ))))
        else Except.error (Exceptions.notFound "") := by
  rw [sample_grid, if_neg (by omega)]
  have hprech : precheckControls image [⟨point 0 0, point (W : ℚ) (H : ℚ), t⟩]
      = Except.ok () := by
    rw [precheckControls, foldExcept_singleton, hpre]
    rfl
  rw [hprech]
  show (match BitMatrix.new W H with
    | Except.error e => Except.error e
    | Except.ok bits0 =>
      match foldExcept (fun bits c => sampleControlBits image bits c) bits0
          [⟨point 0 0, point (W : ℚ) (H : ℚ), t⟩] with
      | Except.error e => Except.error e
      | Except.ok bits =>
        Except.ok (bits,
          (projectCorner [⟨point 0 0, point (W : ℚ) (H : ℚ), t⟩] (point 0 0),
           projectCorner [⟨point 0 0, point (W : ℚ) (H : ℚ), t⟩] (point (W : ℚ) 0),
           projectCorner [⟨point 0 0, point (W : ℚ) (H : ℚ), t⟩] (point (W : ℚ) (H : ℚ)),
           projectCorner [⟨point 0 0, point (W : ℚ) (H : ℚ), t⟩] (point 0 (W : ℚ))))) = _
  rw [BitMatrix.new, if_neg (by omega)]
  show (match foldExcept (fun bits c => sampleControlBits image bits c)
      { width := W, height := H, row_size := (W + BASE_BITS - 1) / BASE_BITS,
        bits := List.replicate ((W + BASE_BITS - 1) / BASE_BITS * H) 0 }
      [⟨point 0 0, point (W : ℚ) (H : ℚ), t⟩] with
    | Except.error e => Except.error e
    | Except.ok bits =>
      Except.ok (bits,
        (projectCorner [⟨point 0 0, point (W : ℚ) (H : ℚ), t⟩] (point 0 0),
         projectCorner [⟨point 0 0, point (W : ℚ) (H : ℚ), t⟩] (point (W : ℚ) 0),
         projectCorner [⟨point 0 0, point (W : ℚ) (H : ℚ), t⟩] (point (W : ℚ) (H : ℚ)),
         projectCorner [⟨point 0 0, point (W : ℚ) (H : ℚ), t⟩] (point 0 (W : ℚ))))) = _
  rw [foldExcept_singleton, sampleControlBits_full image _ W H t hW31 hH31]
  by_cases hcond : (List.range H).all (fun (y : Nat) => (List.range W).all (fun (x : Nat) =>
      image.is_in (t.map (Point.centered (point (x : ℚ) (y : ℚ)))))) = true
  · rw [if_pos hcond, if_pos hcond]
    rfl
  · rw [if_neg hcond, if_neg hcond]

/-- Modelled from the spec (§6): the `BarcodeFormat` enum (its source file is
not under src/); the spec lists exactly these variants. -/
inductive BarcodeFormat where
  | AZTEC
  | CODABAR
  | CODE_39
  | CODE_93
  | CODE_128
  | DATA_MATRIX
  | DXFilmEdge
  | EAN_8
  | EAN_13
  | ITF
  | MAXICODE
  | MICRO_QR_CODE
  | PDF_417
  | QR_CODE
  | RSS_14
  | RSS_EXPANDED
  | TELEPEN
  | UPC_A
  | UPC_E
  | UPC_EAN_EXTENSION
  deriving DecidableEq, Repr

/-- Rust `str::trim`: strip leading and trailing whitespace (text is modelled
as a list of chars; byte indices and char indices agree on the ASCII inputs
involved). -/
def rustTrim (l : List Char) : List Char :=
  ((l.dropWhile Char.isWhitespace).reverse.dropWhile Char.isWhitespace).reverse

namespace VINResultParser

/-- The `IOQ_MATCHER.replace_all(_, "")` step: the regex `[IOQ]` with empty
replacement deletes every `I`, `O` and `Q`. -/
def ioqFilter (l : List Char) : List Char :=
  l.filter fun c => !(c == 'I' || c == 'O' || c == 'Q')

/-- One character of the `[A-Z0-9]` class. -/
def isAZ09 (c : Char) : Bool :=
  (decide ('A' ≤ c) && decide (c ≤ 'Z')) || (decide ('0' ≤ c) && decide (c ≤ '9'))

/-- The `AZ09_MATCHER.find` step: the regex `[A-Z0-9]{17}` finds a match
exactly when some 17 consecutive characters are all in the class. -/
def az09_search (l : List Char) : Bool :=
  (List.range (l.length - 16)).any fun i => ((l.drop i).take 17).all isAZ09

/-- `vin_char_value`. -/
def vin_char_value (c : Char) : Except Exceptions Nat :=
  if 'A' ≤ c ∧ c ≤ 'I' then Except.ok (c.toNat - 'A'.toNat + 1)
  else if 'J' ≤ c ∧ c ≤ 'R' then Except.ok (c.toNat - 'J'.toNat + 1)
  else if 'S' ≤ c ∧ c ≤ 'Z' then Except.ok (c.toNat - 'S'.toNat + 2)
  else if '0' ≤ c ∧ c ≤ '9' then Except.ok (c.toNat - '0'.toNat)
  else Except.error (Exceptions.illegalArgument "vin char out of range")

/-- `vin_position_weight`. -/
def vin_position_weight (position : Nat) : Except Exceptions Nat :=
  if 1 ≤ position ∧ position ≤ 7 then Except.ok (9 - position)
  else if position = 8 then Except.ok 10
  else if position = 9 then Except.ok 0
  else if 10 ≤ position ∧ position ≤ 17 then Except.ok (19 - position)
  else Except.error (Exceptions.illegalArgument "vin position weight out of bounds")

/-- `check_char`. -/
def check_char (remainder : Nat) : Except Exceptions Char :=
  if remainder ≤ 9 then Except.ok (Char.ofNat ('0'.toNat + remainder))
  else if remainder = 10 then Except.ok 'X'
  else Except.error (Exceptions.illegalArgument "remainder too high")

/-- `model_year`. -/
def model_year (c : Char) : Except Exceptions Nat :=
  if 'E' ≤ c ∧ c ≤ 'H' then Except.ok (c.toNat - 'E'.toNat + 1984)
  else if 'J' ≤ c ∧ c ≤ 'N' then Except.ok (c.toNat - 'J'.toNat + 1988)
  else if c = 'P' then Except.ok 1993
  else if 'R' ≤ c ∧ c ≤ 'T' then Except.ok (c.toNat - 'R'.toNat + 1994)
  else if 'V' ≤ c ∧ c ≤ 'Y' then Except.ok (c.toNat - 'V'.toNat + 1997)
  else if '1' ≤ c ∧ c ≤ '9' then Except.ok (c.toNat - '1'.toNat + 2001)
  else if 'A' ≤ c ∧ c ≤ 'D' then Except.ok (c.toNat - 'A'.toNat + 2010)
  else Except.error (Exceptions.illegalArgument "model year argument out of range")

/-- `country_code`: the first two characters of the WMI pick the country. -/
def country_code (wmi : List Char) : Option (List Char) :=
  match wmi.get? 0, wmi.get? 1 with
  | some c1, some c2 =>
    if c1 = '1' ∨ c1 = '4' ∨ c1 = '5' then some ['U', 'S']
    else if c1 = '2' then some ['C', 'A']
    else if c1 = '3' ∧ 'A' ≤ c2 ∧ c2 ≤ 'W' then some ['M', 'X']
    else if c1 = '9' ∧ (('A' ≤ c2 ∧ c2 ≤ 'E') ∨ ('3' ≤ c2 ∧ c2 ≤ '9')) then some ['B', 'R']
    else if c1 = 'J' ∧ 'A' ≤ c2 ∧ c2 ≤ 'T' then some ['J', 'P']
    else if c1 = 'K' ∧ 'L' ≤ c2 ∧ c2 ≤ 'R' then some ['K', 'O']
    else if c1 = 'L' then some ['C', 'N']
    else if c1 = 'M' ∧ 'A' ≤ c2 ∧ c2 ≤ 'E' then some ['I', 'N']
    else if c1 = 'S' ∧ 'A' ≤ c2 ∧ c2 ≤ 'M' then some ['U', 'K']
    else if c1 = 'S' ∧ 'N' ≤ c2 ∧ c2 ≤ 'T' then some ['D', 'E']
    else if c1 = 'V' ∧ 'F' ≤ c2 ∧ c2 ≤ 'R' then some ['F', 'R']
    else if c1 = 'V' ∧ 'S' ≤ c2 ∧ c2 ≤ 'W' then some ['E', 'S']
    else if c1 = 'W' then some ['D', 'E']
    else if c1 = 'X' ∧ (c2 = '0' ∨ ('3' ≤ c2 ∧ c2 ≤ '9')) then some ['R', 'U']
    else if c1 = 'Z' ∧ 'A' ≤ c2 ∧ c2 ≤ 'R' then some ['I', 'T']
    else none
  | _, _ => none

/-- `check_checksum`: weighted sum of the character values mod 11 must equal
the check character at index 8.  Inside the loop `i` stays below the length,
so the `nth(i)` lookup cannot fail and is modelled with `getD`. -/
def check_checksum (vin : List Char) : Except Exceptions Bool :=
  match foldExcept (fun sum i =>
      match vin_position_weight (i + 1) with
      | Except.error e => Except.error e
      | Except.ok w =>
        match vin_char_value (vin.getD i ' ') with
        | Except.error e => Except.error e
        | Except.ok v => Except.ok (sum + w * v)) 0 (List.range vin.length) with
  | Except.error e => Except.error e
  | Except.ok sum =>
    match vin.get? 8 with
    | none => Except.error (Exceptions.illegalArgument "")
    | some check_to_char =>
      match check_char (sum % 11) with
      | Except.error e => Except.error e
      | Except.ok expected => Except.ok (check_to_char == expected)

/-- The typed VIN result (`VINParsedRXingResult`), fields in constructor
order. -/
structure VINParsedRXingResult where
  vin : List Char
  worldManufacturerID : List Char
  vehicleDescriptorSection : List Char
  vehicleIdentifierSection : List Char
  countryCode : List Char
  vehicleAttributes : List Char
  modelYear : Nat
  plantCode : Char
  sequentialNumber : List Char
  deriving DecidableEq, Repr

/-- `VINResultParser::parse` (src/client/result/VINResultParser.rs): None for
non-Code-39 results; trim, delete `[IOQ]`, require a 17-character
`[A-Z0-9]` run, require the checksum (treating a checksum error as a
mismatch), then build the typed result; string slices are in range because
the `[A-Z0-9]{17}` guard forces at least 17 characters. -/
def parse (format : BarcodeFormat) (text : List Char) : Option VINParsedRXingResult :=
  if format ≠ BarcodeFormat.CODE_39 then none
  else
    let raw_text := ioqFilter (rustTrim text)
    if !az09_search raw_text then none
    else
      let check_cs := match check_checksum raw_text with
        | Except.ok b => b
        | Except.error _ => false
      if !check_cs then none
      else
        let wmi := raw_text.take 3
        let countryCode := (country_code wmi).getD []
        match model_year (raw_text.getD 9 '_') with
        | Except.error _ => none
        | Except.ok my =>
          match raw_text.get? 10 with
          | none => none
          | some plant =>
            some ⟨raw_text, wmi, (raw_text.drop 3).take 6, (raw_text.drop 9).take 8,
                  countryCode, (raw_text.drop 3).take 5, my, plant, raw_text.drop 11⟩

end VINResultParser

/-- The reader families `MultiFormatReader::set_ints` can enable, one per
pushed reader object (`MultiFormatOneDReader`, `QRCodeReader`,
`DataMatrixReader`, `AztecReader`, `PDF417Reader`, `MaxiCodeReader`). -/
inductive ReaderKind where
  | oneD
  | qr
  | dataMatrix
  | aztec
  | pdf417
  | maxiCode
  deriving DecidableEq, Repr

namespace MultiFormatReader

/-- The `addOneDReader` disjunction of `set_ints`: some requested format
belongs to the 1D family. -/
def oneDFormats (fs : List BarcodeFormat) : Bool :=
  fs.contains BarcodeFormat.UPC_A || fs.contains BarcodeFormat.UPC_E
    || fs.contains BarcodeFormat.EAN_13 || fs.contains BarcodeFormat.EAN_8
    || fs.contains BarcodeFormat.CODABAR || fs.contains BarcodeFormat.CODE_39
    || fs.contains BarcodeFormat.CODE_93 || fs.contains BarcodeFormat.CODE_128
    || fs.contains BarcodeFormat.ITF || fs.contains BarcodeFormat.RSS_14
    || fs.contains BarcodeFormat.RSS_EXPANDED

/-- Some requested format has a reader family at all (1D or one of the five
2D readers). -/
def familyHit (fs : List BarcodeFormat) : Bool :=
  oneDFormats fs || fs.contains BarcodeFormat.QR_CODE
    || fs.contains BarcodeFormat.DATA_MATRIX || fs.contains BarcodeFormat.AZTEC
    || fs.contains BarcodeFormat.PDF_417 || fs.contains BarcodeFormat.MAXICODE

/-- The reader list built inside `if let Some(PossibleFormats(formats))`:
1D first unless TryHarder, then the requested 2D readers, then 1D at the end
under TryHarder. -/
def formatReaders (tryHarder : Bool) (fs : List BarcodeFormat) : List ReaderKind :=
  (if oneDFormats fs && !tryHarder then [ReaderKind.oneD] else [])
    ++ (if fs.contains BarcodeFormat.QR_CODE then [ReaderKind.qr] else [])
    ++ (if fs.contains BarcodeFormat.DATA_MATRIX then [ReaderKind.dataMatrix] else [])
    ++ (if fs.contains BarcodeFormat.AZTEC then [ReaderKind.aztec] else [])
    ++ (if fs.contains BarcodeFormat.PDF_417 then [ReaderKind.pdf417] else [])
    ++ (if fs.contains BarcodeFormat.MAXICODE then [ReaderKind.maxiCode] else [])
    ++ (if oneDFormats fs && tryHarder then [ReaderKind.oneD] else [])

/-- The fallback list pushed when `readers` ends up empty: every reader, 1D
first unless TryHarder, 1D last under TryHarder. -/
def defaultReaders (tryHarder : Bool) : List ReaderKind :=
  (if !tryHarder then [ReaderKind.oneD] else [])
    ++ [ReaderKind.qr, ReaderKind.dataMatrix, ReaderKind.aztec, ReaderKind.pdf417,
        ReaderKind.maxiCode]
    ++ (if tryHarder then [ReaderKind.oneD] else [])

/-- `MultiFormatReader::set_ints` (src/multi_format_reader.rs), abstracted to
the hint data it reads: the TryHarder flag and the optional PossibleFormats
set (the hint dictionary type is not under src/; the spec's §4.9 selection
rules use exactly these two inputs plus AlsoInverted, which `set_ints`
ignores).  Returns the reader list it stores. -/
def set_ints (tryHarder : Bool) (formats : Option (List BarcodeFormat)) : List ReaderKind :=
  let readers : List ReaderKind :=
    match formats with
    | some fs => formatReaders tryHarder fs
    | none => []
  if readers.isEmpty then defaultReaders tryHarder else readers

/-- The `for reader in readers` loop of `decode_internal`: return the first
`Ok` result, fall through on any error. -/
def tryAll {Img R : Type} (readers : List (Img → Except Exceptions R)) (image : Img) :
    Option R :=
  match readers with
  | [] => none
  | r :: rest =>
    match r image with
    | Except.ok v => some v
    | Except.error _ => tryAll rest image

/-- `MultiFormatReader::decode_internal` (src/multi_format_reader.rs):
run every reader on the image, first success winning; if none succeeds and
the AlsoInverted hint is set, flip the image and run every reader again;
otherwise (including when the reader list is empty) fail with
NotFound("").  Readers are abstracted as functions from images to results
(the `dyn Reader` objects with their held hints), and the
`getBlackMatrixMut().flip_self()` inversion as an abstract `flip`. -/
def decode_internal {Img R : Type} (readers : List (Img → Except Exceptions R))
    (alsoInverted : Bool) (flip : Img → Img) (image : Img) : Except Exceptions R :=
  if !readers.isEmpty then
    match tryAll readers image with
    | some v => Except.ok v
    | none =>
      if alsoInverted then
        match tryAll readers (flip image) with
        | some v => Except.ok v
        | none => Except.error (Exceptions.notFound "")
      else Except.error (Exceptions.notFound "")
  else Except.error (Exceptions.notFound "")

lemma tryAll_eq_none {Img R : Type} (image : Img) :
    ∀ readers : List (Img → Except Exceptions R),
      tryAll readers image = none ↔ ∀ r ∈ readers, ∃ e, r image = Except.error e := by
  intro readers
  induction readers with
  | nil => simp [tryAll]
  | cons r rest ih =>
      rw [tryAll]
      cases hr : r image with
      | ok v =>
          show some v = none ↔ _
          constructor
          · intro h
            exact absurd h (by simp)
          · intro hall
            obtain ⟨e, he⟩ := hall r (List.mem_cons_self _ _)
            rw [hr] at he
            exact absurd he (by simp)
      | error e =>
          show tryAll rest image = none ↔ _
          rw [ih]
          constructor
          · intro hall r' hr'
            rcases List.mem_cons.mp hr' with rfl | hmem
            · exact ⟨e, hr⟩
            · exact hall r' hmem
          · intro hall r' hr'
            exact hall r' (List.mem_cons_of_mem _ hr')

lemma tryAll_eq_some {Img R : Type} (image : Img) (v : R) :
    ∀ readers : List (Img → Except Exceptions R),
      tryAll readers image = some v
        ↔ ∃ l1 r l2, readers = l1 ++ r :: l2
            ∧ (∀ r' ∈ l1, ∃ e, r' image = Except.error e)
            ∧ r image = Except.ok v := by
  intro readers
  induction readers with
  | nil =>
      simp only [tryAll, reduceCtorEq, false_iff]
      rintro ⟨l1, r, l2, habs, -, -⟩
      exact absurd habs (by simp)
  | cons r rest ih =>
      rw [tryAll]
      cases hr : r image with
      | ok w =>
          show some w = some v ↔ _
          constructor
          · intro hsome
            have hwv : w = v := Option.some.inj hsome
            refine ⟨[], r, rest, rfl, by simp, ?_⟩
            rw [hr, hwv]
          · rintro ⟨l1, r0, l2, hsplit, herr, hok⟩
            cases l1 with
            | nil =>
                simp only [List.nil_append, List.cons.injEq] at hsplit
                rw [← hsplit.1] at hok
                rw [hr] at hok
                exact congrArg some (Except.ok.inj hok)
            | cons a l1t =>
                simp only [List.cons_append, List.cons.injEq] at hsplit
                obtain ⟨e, he⟩ := herr a (by simp)
                rw [← hsplit.1, hr] at he
                exact absurd he (by simp)
      | error e =>
          show tryAll rest image = some v ↔ _
          rw [ih]
          constructor
          · rintro ⟨l1, r0, l2, hsplit, herr, hok⟩
            refine ⟨r :: l1, r0, l2, by rw [hsplit, List.cons_append], ?_, hok⟩
            intro r' hr'
            rcases List.mem_cons.mp hr' with rfl | hmem
            · exact ⟨e, hr⟩
            · exact herr r' hmem
          · rintro ⟨l1, r0, l2, hsplit, herr, hok⟩
            cases l1 with
            | nil =>
                simp only [List.nil_append, List.cons.injEq] at hsplit
                rw [← hsplit.1, hr] at hok
                exact absurd hok (by simp)
            | cons a l1t =>
                simp only [List.cons_append, List.cons.injEq] at hsplit
                refine ⟨l1t, r0, l2, hsplit.2, ?_, hok⟩
                intro r' hr'
                exact herr r' (List.mem_cons_of_mem _ hr')

lemma mem_ite_singleton {α : Type} (c : Prop) [Decidable c] (a k : α) :
    k ∈ (if c then [a] else []) ↔ (k = a ∧ c) := by
  split
  next h => simp [h]
  next h => simp [h]

set_option maxHeartbeats 1000000 in
lemma mem_formatReaders (tryHarder : Bool) (fs : List BarcodeFormat) (k : ReaderKind) :
    k ∈ formatReaders tryHarder fs
      ↔ (k = ReaderKind.oneD ∧ oneDFormats fs = true)
        ∨ (k = ReaderKind.qr ∧ fs.contains BarcodeFormat.QR_CODE = true)
        ∨ (k = ReaderKind.dataMatrix ∧ fs.contains BarcodeFormat.DATA_MATRIX = true)
        ∨ (k = ReaderKind.aztec ∧ fs.contains BarcodeFormat.AZTEC = true)
        ∨ (k = ReaderKind.pdf417 ∧ fs.contains BarcodeFormat.PDF_417 = true)
        ∨ (k = ReaderKind.maxiCode ∧ fs.contains BarcodeFormat.MAXICODE = true) := by
  rw [formatReaders]
  cases tryHarder <;>
    simp only [List.mem_append, mem_ite_singleton, Bool.and_eq_true, Bool.not_false,
      Bool.not_true, and_true, and_false, or_false, false_or, false_and, or_assoc] <;>
    tauto

end MultiFormatReader

end Rxing

/-- C7: `peak_bits` fails exactly when `readBits` fails (same guard on the
bit count and availability, same InvalidArgument error), returns exactly the
value `readBits` would return when both succeed, and — being a `&self`
method, embedded as a function that returns no new cursor — leaves the
cursor (byte offset, bit offset, available) untouched. -/
theorem C7_peak_bits_refines_readBits (s : Rxing.BitSource) (n : Nat) :
    s.peak_bits n = (s.readBits n).map Prod.fst ∧
    ((s.peak_bits n).isOk = true ↔ 1 ≤ n ∧ n ≤ 32 ∧ n ≤ s.available) ∧
    (¬(1 ≤ n ∧ n ≤ 32 ∧ n ≤ s.available) →
      s.peak_bits n = Except.error (.illegalArgument (toString n))) := by
  have hmain : s.peak_bits n = (s.readBits n).map Prod.fst := by
    rw [Rxing.BitSource.peak_bits, Rxing.BitSource.readBits]
    split
    · rfl
    · split
      · dsimp only
        split
        · rw [Rxing.BitSource.peak_bits_tail_eq_readBits_tail]
          rfl
        · rw [Rxing.BitSource.peak_bits_tail_eq_readBits_tail]
          rfl
      · rw [Rxing.BitSource.peak_bits_tail_eq_readBits_tail]
        rfl
  refine ⟨hmain, ?_, ?_⟩
  · rw [Rxing.BitSource.peak_bits]
    split
    · rename_i h
      simp only [Except.isOk]
      constructor
      · intro hcontr
        cases hcontr
      · intro hc
        exact absurd hc (by omega)
    · rename_i h
      simp only [Except.isOk]
      constructor
      · intro _
        omega
      · intro _
        split
        · split <;> rfl
        · rfl
  · intro hfail
    rw [Rxing.BitSource.peak_bits, if_pos (by omega)]

/-- C7 witness: a concrete instantiation of the failure branch of the
theorem. -/
theorem C7_peak_bits_refines_readBits_witness :
    (Rxing.BitSource.new [7]).peak_bits 0 =
      Except.error (.illegalArgument (toString 0)) :=
  (C7_peak_bits_refines_readBits (Rxing.BitSource.new [7]) 0).2.2 (by intro h; omega)


/-- C6: for every well-formed BitMatrix and each d in {0, 90, 180, 270},
applying `rotate d` four times succeeds and returns a matrix with the
original width, height, and bits. -/
theorem C6_rotate_four_times_identity (m : Rxing.BitMatrix) (hwf : m.WF) (d : Nat)
    (hd : d = 0 ∨ d = 90 ∨ d = 180 ∨ d = 270) :
    ∃ m4,
      (m.rotate d >>= fun m1 => m1.rotate d >>= fun m2 => m2.rotate d >>= fun m3 =>
        m3.rotate d) = Except.ok m4 ∧
      m4.width = m.width ∧ m4.height = m.height ∧
      ∀ x y, x < m.width → y < m.height → m4.get x y = m.get x y := by
  have hW : 1 ≤ m.width := hwf.1
  have hH : 1 ≤ m.height := hwf.2.1
  rcases hd with rfl | rfl | rfl | rfl
  · exact ⟨m, rfl, rfl, rfl, fun x y _ _ => rfl⟩
  · refine ⟨m.rotate90.rotate90.rotate90.rotate90, rfl, rfl, rfl, ?_⟩
    intro x y hx hy
    have hw1 := Rxing.BitMatrix.rotate90_WF m hwf
    have hw2 := Rxing.BitMatrix.rotate90_WF _ hw1
    have hw3 := Rxing.BitMatrix.rotate90_WF _ hw2
    have e4 : m.rotate90.rotate90.rotate90.rotate90.get x y
        = m.rotate90.rotate90.rotate90.get (m.height - 1 - y) x :=
      Rxing.BitMatrix.rotate90_get _ hw3 hx hy
    have e3 : m.rotate90.rotate90.rotate90.get (m.height - 1 - y) x
        = m.rotate90.rotate90.get (m.width - 1 - x) (m.height - 1 - y) :=
      Rxing.BitMatrix.rotate90_get _ hw2
        (by show m.height - 1 - y < m.height; omega) hx
    have e2 : m.rotate90.rotate90.get (m.width - 1 - x) (m.height - 1 - y)
        = m.rotate90.get (m.height - 1 - (m.height - 1 - y)) (m.width - 1 - x) :=
      Rxing.BitMatrix.rotate90_get _ hw1
        (by show m.width - 1 - x < m.width; omega)
        (by show m.height - 1 - y < m.height; omega)
    have e1 : m.rotate90.get y (m.width - 1 - x)
        = m.get (m.width - 1 - (m.width - 1 - x)) y :=
      Rxing.BitMatrix.rotate90_get m hwf (by omega) (by omega)
    have hyy : m.height - 1 - (m.height - 1 - y) = y := by omega
    have hxx : m.width - 1 - (m.width - 1 - x) = x := by omega
    rw [e4, e3, e2, hyy, e1, hxx]
  · obtain ⟨hwf2, hw2, hh2, hg2⟩ := Rxing.BitMatrix.rotate180_twice_spec m hwf
    rw [← hw2, ← hh2] at hg2
    obtain ⟨hwf4, hw4, hh4, hg4⟩ :=
      Rxing.BitMatrix.rotate180_twice_spec m.rotate180.rotate180 hwf2
    refine ⟨m.rotate180.rotate180.rotate180.rotate180, rfl, by rw [hw4, hw2],
      by rw [hh4, hh2], ?_⟩
    intro x y hx hy
    rw [hg4 x y (by rw [hw2]; exact hx) (by rw [hh2]; exact hy),
      hg2 x y (by rw [hw2]; exact hx) (by rw [hh2]; exact hy)]
  · obtain ⟨hwf1, hw1, hh1, hg1⟩ := Rxing.BitMatrix.rotate270_step_spec m hwf
    obtain ⟨hwf2, hw2, hh2, hg2⟩ := Rxing.BitMatrix.rotate270_step_spec _ hwf1
    obtain ⟨hwf3, hw3, hh3, hg3⟩ := Rxing.BitMatrix.rotate270_step_spec _ hwf2
    obtain ⟨hwf4, hw4, hh4, hg4⟩ := Rxing.BitMatrix.rotate270_step_spec _ hwf3
    refine ⟨_, rfl, by rw [hw4, hh3, hw2, hh1], by rw [hh4, hw3, hh2, hw1], ?_⟩
    intro x y hx hy
    rw [hg4 x y (by rw [hh3, hw2, hh1]; exact hx) (by rw [hw3, hh2, hw1]; exact hy)]
    rw [hh3, hw2, hh1]
    rw [hg3 y (m.width - 1 - x) (by rw [hh2, hw1]; exact hy) (by rw [hw2, hh1]; omega)]
    rw [hh2, hw1]
    rw [hg2 (m.width - 1 - x) (m.height - 1 - y) (by rw [hh1]; omega) (by rw [hw1]; omega)]
    rw [hh1]
    rw [hg1 (m.height - 1 - y) (m.width - 1 - (m.width - 1 - x)) (by omega) (by omega)]
    have hxx : m.width - 1 - (m.width - 1 - x) = x := by omega
    have hyy : m.height - 1 - (m.height - 1 - y) = y := by omega
    rw [hxx, hyy]

/-- C6 witness: the four-fold rotation theorem applied to a concrete 2×1
matrix at d = 90. -/
theorem C6_rotate_four_times_identity_witness :
    ∃ m4,
      ((Rxing.BitMatrix.rotate { width := 2, height := 1, row_size := 1, bits := [1] } 90) >>=
        fun m1 => m1.rotate 90 >>= fun m2 => m2.rotate 90 >>= fun m3 =>
        m3.rotate 90) = Except.ok m4 ∧
      m4.width = ({ width := 2, height := 1, row_size := 1, bits := [1] } : Rxing.BitMatrix).width ∧
      m4.height =
        ({ width := 2, height := 1, row_size := 1, bits := [1] } : Rxing.BitMatrix).height ∧
      ∀ x y,
        x < ({ width := 2, height := 1, row_size := 1, bits := [1] } : Rxing.BitMatrix).width →
        y < ({ width := 2, height := 1, row_size := 1, bits := [1] } : Rxing.BitMatrix).height →
        m4.get x y = ({ width := 2, height := 1, row_size := 1, bits := [1] } : Rxing.BitMatrix).get x y :=
  C6_rotate_four_times_identity { width := 2, height := 1, row_size := 1, bits := [1] }
    (by constructor <;> simp [Rxing.BASE_BITS]) 90 (by omega)

/-- C2 (evaluation at the failing input): the spec says every out-of-bounds
`get` returns false, and `get`'s own doc comment promises the same, but on the
1×2 matrix with only bit (0,1) set, `get 32 0` — out of bounds since the
width is 1 — reads the word of row 1 and returns `true`. -/
theorem C2_bitmatrix_get_oob_failing_input :
    Rxing.BitMatrix.new 1 2 =
      Except.ok ({ width := 1, height := 2, row_size := 1, bits := [0, 0] } : Rxing.BitMatrix) ∧
    (Rxing.BitMatrix.set { width := 1, height := 2, row_size := 1, bits := [0, 0] } 0 1).get 32 0
      = true ∧
    32 ≥ (1 : Nat) :=
  ⟨rfl, rfl, by omega⟩

/-- C5 (counterexample): the claim says `rotate deg` fails for every `deg`
outside {0, 90, 180, 270}, but the source matches on `degrees % 360`, so
`rotate 360` succeeds (returning the matrix unchanged). -/
theorem C5_rotate_360_counterexample :
    Rxing.BitMatrix.rotate { width := 1, height := 1, row_size := 1, bits := [0] } 360 =
      Except.ok ({ width := 1, height := 1, row_size := 1, bits := [0] } : Rxing.BitMatrix) ∧
    ¬((360 : Nat) = 0 ∨ (360 : Nat) = 90 ∨ (360 : Nat) = 180 ∨ (360 : Nat) = 270) :=
  ⟨rfl, by omega⟩

/-- C5 (amended): `rotate deg` succeeds exactly when `deg % 360` is one of
0, 90, 180, 270, and fails with InvalidArgument for every other residue. -/
theorem C5_rotate_amended (m : Rxing.BitMatrix) (deg : Nat) :
    (deg % 360 = 0 ∨ deg % 360 = 90 ∨ deg % 360 = 180 ∨ deg % 360 = 270 →
      (m.rotate deg).isOk = true) ∧
    (¬(deg % 360 = 0 ∨ deg % 360 = 90 ∨ deg % 360 = 180 ∨ deg % 360 = 270) →
      m.rotate deg =
        Except.error (.illegalArgument "degrees must be a multiple of 0, 90, 180, or 270")) := by
  unfold Rxing.BitMatrix.rotate
  constructor
  · rintro (h | h | h | h) <;> rw [h] <;> rfl
  · intro h
    split <;> simp_all

/-- C5 witness: instantiates the amended theorem at concrete inputs. -/
theorem C5_rotate_amended_witness :
    ((Rxing.BitMatrix.rotate { width := 1, height := 1, row_size := 1, bits := [0] } 90).isOk
      = true) ∧
    Rxing.BitMatrix.rotate { width := 1, height := 1, row_size := 1, bits := [0] } 45 =
      Except.error (.illegalArgument "degrees must be a multiple of 0, 90, 180, or 270") :=
  ⟨(C5_rotate_amended _ 90).1 (by omega),
   (C5_rotate_amended _ 45).2 (by omega)⟩

/-- C3: for every byte sequence and every legal schedule of `readBits` calls
whose bit counts are each in [1, 32] and sum to 8·N (the total number of
bits), every read succeeds, and writing each value back with
`BitSourceBuilder::write` using the same bit counts and then extracting the
byte array reproduces the original byte sequence exactly (reads and writes
are MSB-first; the trailing byte needs no padding here because the schedule
consumes a whole number of bytes). -/
theorem C3_read_write_roundtrip (bytes : List Nat) (hby : ∀ a ∈ bytes, a < 256)
    (counts : List Nat) (hc : ∀ c ∈ counts, 1 ≤ c ∧ c ≤ 32)
    (hsum : counts.sum = 8 * bytes.length) :
    ∃ values : List Nat,
      Rxing.readSchedule (Rxing.BitSource.new bytes) counts
        = Except.ok (values, (⟨bytes, bytes.length, 0⟩ : Rxing.BitSource)) ∧
      (Rxing.writeSchedule Rxing.BitSourceBuilder.new
          (values.zip counts)).toByteArray = bytes := by
  obtain ⟨values, hread, hinvf, hbitsf⟩ := Rxing.roundtrip_aux bytes hby counts 0
    Rxing.BitSourceBuilder.new hc (by omega) Rxing.BitSourceBuilder.BInv_new
    (by rw [Rxing.BitSourceBuilder.builderBits_new, List.take_zero])
  have hnew : Rxing.BitSource.new bytes = ⟨bytes, 0 / 8, 0 % 8⟩ := by
    rw [Rxing.BitSource.new]
  refine ⟨values, ?_, ?_⟩
  · rw [hnew, hread, show (0 + counts.sum) / 8 = bytes.length by omega,
      show (0 + counts.sum) % 8 = 0 by omega]
  · have hball : Rxing.BitSourceBuilder.builderBits
          (Rxing.writeSchedule Rxing.BitSourceBuilder.new (values.zip counts))
        = Rxing.bytesToBits bytes := by
      rw [hbitsf]
      exact List.take_of_length_le (by rw [Rxing.length_bytesToBits]; omega)
    obtain ⟨houtlt, hbl1, hbl8⟩ := hinvf
    have hlen8 : 8 * (Rxing.writeSchedule Rxing.BitSourceBuilder.new
          (values.zip counts)).output.length
          + (8 - (Rxing.writeSchedule Rxing.BitSourceBuilder.new
              (values.zip counts)).bitsLeftInNextByte)
        = 8 * bytes.length := by
      rw [← Rxing.builderBits_length, hball, Rxing.length_bytesToBits]
    have hbl : (Rxing.writeSchedule Rxing.BitSourceBuilder.new
        (values.zip counts)).bitsLeftInNextByte = 8 := by omega
    rw [Rxing.BitSourceBuilder.toByteArray, if_neg (by omega)]
    have hout : Rxing.bytesToBits (Rxing.writeSchedule Rxing.BitSourceBuilder.new
          (values.zip counts)).output = Rxing.bytesToBits bytes := by
      have h := hball
      rw [Rxing.BitSourceBuilder.builderBits, hbl, Nat.sub_self] at h
      simpa [Rxing.toBits] using h
    exact Rxing.bytesToBits_inj houtlt hby hout

/-- Witness for C3 at a concrete input: the single byte 0xAB read as 3 bits
and then 5 bits. -/
theorem C3_read_write_roundtrip_witness :
    (∀ a ∈ [171], a < 256) ∧ (∀ c ∈ [3, 5], 1 ≤ c ∧ c ≤ 32)
      ∧ [3, 5].sum = 8 * [171].length
      ∧ ∃ values : List Nat,
          Rxing.readSchedule (Rxing.BitSource.new [171]) [3, 5]
            = Except.ok (values, (⟨[171], 1, 0⟩ : Rxing.BitSource)) ∧
          (Rxing.writeSchedule Rxing.BitSourceBuilder.new
              (values.zip [3, 5])).toByteArray = [171] :=
  ⟨by decide, by decide, by decide,
    C3_read_write_roundtrip [171] (by decide) [3, 5] (by decide) (by decide)⟩

/-- C4: the fourth corner returned by a successful `sample_grid` is wrong.
On a 1×2 output grid `(W, H) = (1, 2)` with the identity transform over an
all-white 1×2 image, the call succeeds, but the fourth returned point is the
projection of `(0, dimensionX) = (0, 1)` — namely `(1/2, 3/2)` — whereas the
projection of the bottom-left output corner `(0, H) = (0, 2)` demanded by the
claim is `(1/2, 5/2)`: the source builds the last corner from `(0,
dimensionX)` instead of `(0, dimensionY)`. -/
theorem C4_sample_grid_corner_bug :
    (∃ bits : Rxing.BitMatrix,
      Rxing.sample_grid ⟨1, 2, 1, [0, 0]⟩ 1 2
          [⟨Rxing.point 0 0, Rxing.point ((1 : Nat) : ℚ) ((2 : Nat) : ℚ),
            ⟨fun p => p, true⟩⟩]
        = Except.ok (bits,
            ((⟨1/2, 1/2⟩ : Rxing.Point), (⟨3/2, 1/2⟩ : Rxing.Point),
             (⟨3/2, 5/2⟩ : Rxing.Point), (⟨1/2, 3/2⟩ : Rxing.Point)))) ∧
    Rxing.projectCorner
        [⟨Rxing.point 0 0, Rxing.point ((1 : Nat) : ℚ) ((2 : Nat) : ℚ),
          ⟨fun p => p, true⟩⟩]
        (Rxing.point 0 ((2 : Nat) : ℚ)) = (⟨1/2, 5/2⟩ : Rxing.Point) ∧
    (⟨1/2, 3/2⟩ : Rxing.Point) ≠ (⟨1/2, 5/2⟩ : Rxing.Point) := by
  have hpre : Rxing.controlPrecheckOk ⟨1, 2, 1, [0, 0]⟩
      ⟨Rxing.point 0 0, Rxing.point ((1 : Nat) : ℚ) ((2 : Nat) : ℚ),
        ⟨fun p => p, true⟩⟩ = true := by
    norm_num [Rxing.controlPrecheckOk, Rxing.BitMatrix.is_in, Rxing.BitMatrix.isIn,
      Rxing.Point.centered, Rxing.point, Bool.and_eq_true, decide_eq_true_eq]
  have hcond : (List.range 2).all (fun (y : Nat) => (List.range 1).all (fun (x : Nat) =>
      Rxing.BitMatrix.is_in ⟨1, 2, 1, [0, 0]⟩
        ((⟨fun p => p, true⟩ : Rxing.PTransform).map
          (Rxing.Point.centered (Rxing.point (x : ℚ) (y : ℚ)))))) = true := by
    simp only [List.all_eq_true, List.mem_range]
    intro y hy x hx
    interval_cases x <;> interval_cases y <;>
      norm_num [Rxing.BitMatrix.is_in, Rxing.BitMatrix.isIn, Rxing.Point.centered,
        Rxing.point, Bool.and_eq_true, decide_eq_true_eq]
  have hc1 : Rxing.projectCorner
      [⟨Rxing.point 0 0, Rxing.point ((1 : Nat) : ℚ) ((2 : Nat) : ℚ), ⟨fun p => p, true⟩⟩]
      (Rxing.point 0 0) = (⟨1/2, 1/2⟩ : Rxing.Point) := by
    rw [Rxing.projectCorner, List.find?_cons_of_pos _
      (by norm_num [Rxing.point, decide_eq_true_eq, Bool.and_eq_true])]
    norm_num [Rxing.Point.add, Rxing.point, Rxing.Point.mk.injEq]
  have hc2 : Rxing.projectCorner
      [⟨Rxing.point 0 0, Rxing.point ((1 : Nat) : ℚ) ((2 : Nat) : ℚ), ⟨fun p => p, true⟩⟩]
      (Rxing.point ((1 : Nat) : ℚ) 0) = (⟨3/2, 1/2⟩ : Rxing.Point) := by
    rw [Rxing.projectCorner, List.find?_cons_of_pos _
      (by norm_num [Rxing.point, decide_eq_true_eq, Bool.and_eq_true])]
    norm_num [Rxing.Point.add, Rxing.point, Rxing.Point.mk.injEq]
  have hc3 : Rxing.projectCorner
      [⟨Rxing.point 0 0, Rxing.point ((1 : Nat) : ℚ) ((2 : Nat) : ℚ), ⟨fun p => p, true⟩⟩]
      (Rxing.point ((1 : Nat) : ℚ) ((2 : Nat) : ℚ)) = (⟨3/2, 5/2⟩ : Rxing.Point) := by
    rw [Rxing.projectCorner, List.find?_cons_of_pos _
      (by norm_num [Rxing.point, decide_eq_true_eq, Bool.and_eq_true])]
    norm_num [Rxing.Point.add, Rxing.point, Rxing.Point.mk.injEq]
  have hc4 : Rxing.projectCorner
      [⟨Rxing.point 0 0, Rxing.point ((1 : Nat) : ℚ) ((2 : Nat) : ℚ), ⟨fun p => p, true⟩⟩]
      (Rxing.point 0 ((1 : Nat) : ℚ)) = (⟨1/2, 3/2⟩ : Rxing.Point) := by
    rw [Rxing.projectCorner, List.find?_cons_of_pos _
      (by norm_num [Rxing.point, decide_eq_true_eq, Bool.and_eq_true])]
    norm_num [Rxing.Point.add, Rxing.point, Rxing.Point.mk.injEq]
  have hc5 : Rxing.projectCorner
      [⟨Rxing.point 0 0, Rxing.point ((1 : Nat) : ℚ) ((2 : Nat) : ℚ), ⟨fun p => p, true⟩⟩]
      (Rxing.point 0 ((2 : Nat) : ℚ)) = (⟨1/2, 5/2⟩ : Rxing.Point) := by
    rw [Rxing.projectCorner, List.find?_cons_of_pos _
      (by norm_num [Rxing.point, decide_eq_true_eq, Bool.and_eq_true])]
    norm_num [Rxing.Point.add, Rxing.point, Rxing.Point.mk.injEq]
  refine ⟨⟨Rxing.gridBits ⟨1, 2, 1, [0, 0]⟩ 1 2 ⟨fun p => p, true⟩, ?_⟩, hc5, ?_⟩
  · rw [Rxing.sample_grid_single ⟨1, 2, 1, [0, 0]⟩ 1 2 ⟨fun p => p, true⟩
      (by norm_num) (by norm_num) (by norm_num) (by norm_num) hpre, if_pos hcond,
      hc1, hc2, hc3, hc4]
  · norm_num [Rxing.Point.mk.injEq]

/-- C8 (amended): `sample_grid` also fails with NotFound when either output
dimension is zero (before looking at any control), and fails when a control's
corner precheck fails — which covers both an invalid transform and a corner
mapping outside the image.  For the single full-grid control over
`[0, W) × [0, H)` whose precheck passes: if every mapped cell center lies in
the image the call succeeds and bit `(x, y)` of the result equals the image
bit at the mapped center of cell `(x, y)`; if some mapped cell center falls
outside the image the call fails with NotFound. -/
theorem C8_sample_grid_amended (image : Rxing.BitMatrix) (W H : Nat) (t : Rxing.PTransform)
    (hW : 0 < W) (hH : 0 < H) (hW31 : W < 2 ^ 31) (hH31 : H < 2 ^ 31) :
    (∀ (img : Rxing.BitMatrix) (dY : Nat) (cs : List Rxing.SamplerControl),
        Rxing.sample_grid img 0 dY cs = Except.error (Rxing.Exceptions.notFound "")) ∧
    (∀ (img : Rxing.BitMatrix) (dX : Nat) (cs : List Rxing.SamplerControl),
        Rxing.sample_grid img dX 0 cs = Except.error (Rxing.Exceptions.notFound "")) ∧
    (Rxing.controlPrecheckOk image
          ⟨Rxing.point 0 0, Rxing.point (W : ℚ) (H : ℚ), t⟩ = false →
        Rxing.sample_grid image W H [⟨Rxing.point 0 0, Rxing.point (W : ℚ) (H : ℚ), t⟩]
          = Except.error (Rxing.Exceptions.notFound "")) ∧
    (Rxing.controlPrecheckOk image
          ⟨Rxing.point 0 0, Rxing.point (W : ℚ) (H : ℚ), t⟩ = true →
      ((∀ x, x < W → ∀ y, y < H →
          image.is_in (t.map (Rxing.Point.centered (Rxing.point (x : ℚ) (y : ℚ)))) = true) →
        ∃ (bits : Rxing.BitMatrix) (pts : Rxing.Point × Rxing.Point × Rxing.Point × Rxing.Point),
          Rxing.sample_grid image W H [⟨Rxing.point 0 0, Rxing.point (W : ℚ) (H : ℚ), t⟩]
            = Except.ok (bits, pts) ∧
          bits.width = W ∧ bits.height = H ∧
          (∀ x, x < W → ∀ y, y < H →
            bits.get x y
              = image.get_point
                  (t.map (Rxing.Point.centered (Rxing.point (x : ℚ) (y : ℚ)))))) ∧
      ((∃ x, x < W ∧ ∃ y, y < H ∧
          image.is_in (t.map (Rxing.Point.centered (Rxing.point (x : ℚ) (y : ℚ)))) = false) →
        Rxing.sample_grid image W H [⟨Rxing.point 0 0, Rxing.point (W : ℚ) (H : ℚ), t⟩]
          = Except.error (Rxing.Exceptions.notFound ""))) := by
  refine ⟨?_, ?_, ?_, ?_⟩
  · intro img dY cs
    rw [Rxing.sample_grid, if_pos (Or.inl rfl)]
  · intro img dX cs
    rw [Rxing.sample_grid, if_pos (Or.inr rfl)]
  · intro hpre
    rw [Rxing.sample_grid, if_neg (by omega)]
    have hp : Rxing.precheckControls image
        [⟨Rxing.point 0 0, Rxing.point (W : ℚ) (H : ℚ), t⟩]
        = Except.error (Rxing.Exceptions.notFound "") := by
      rw [Rxing.precheckControls, Rxing.foldExcept_singleton, hpre]
      rfl
    rw [hp]
  · intro hpre
    constructor
    · intro hall
      have hcond : (List.range H).all (fun (y : Nat) => (List.range W).all (fun (x : Nat) =>
          image.is_in (t.map (Rxing.Point.centered (Rxing.point (x : ℚ) (y : ℚ)))))) = true := by
        simp only [List.all_eq_true, List.mem_range]
        intro y hy x hx
        exact hall x hx y hy
      refine ⟨Rxing.gridBits image W H t,
        (Rxing.projectCorner [⟨Rxing.point 0 0, Rxing.point (W : ℚ) (H : ℚ), t⟩]
            (Rxing.point 0 0),
         Rxing.projectCorner [⟨Rxing.point 0 0, Rxing.point (W : ℚ) (H : ℚ), t⟩]
            (Rxing.point (W : ℚ) 0),
         Rxing.projectCorner [⟨Rxing.point 0 0, Rxing.point (W : ℚ) (H : ℚ), t⟩]
            (Rxing.point (W : ℚ) (H : ℚ)),
         Rxing.projectCorner [⟨Rxing.point 0 0, Rxing.point (W : ℚ) (H : ℚ), t⟩]
            (Rxing.point 0 (W : ℚ))), ?_, ?_, ?_, ?_⟩
      · rw [Rxing.sample_grid_single image W H t hW hH hW31 hH31 hpre, if_pos hcond]
      · exact (Rxing.gridBits_dims image W H t).1
      · exact (Rxing.gridBits_dims image W H t).2
      · intro x hx y hy
        exact Rxing.gridBits_get image W H t hx hy
    · rintro ⟨x, hx, y, hy, hbad⟩
      have hcond : ¬ ((List.range H).all (fun (y : Nat) => (List.range W).all (fun (x : Nat) =>
          image.is_in (t.map (Rxing.Point.centered (Rxing.point (x : ℚ) (y : ℚ)))))) = true) := by
        simp only [List.all_eq_true, List.mem_range]
        intro hcontra
        have h := hcontra y hy x hx
        rw [hbad] at h
        exact Bool.false_ne_true h
      rw [Rxing.sample_grid_single image W H t hW hH hW31 hH31 hpre, if_neg hcond]

/-- Witness for C8 at a concrete input: a 1×1 all-white image, a 1×1 output
grid and the identity transform. -/
theorem C8_sample_grid_amended_witness :
    0 < 1 ∧ 1 < 2 ^ 31 ∧
    ((∀ (img : Rxing.BitMatrix) (dY : Nat) (cs : List Rxing.SamplerControl),
        Rxing.sample_grid img 0 dY cs = Except.error (Rxing.Exceptions.notFound "")) ∧
    (∀ (img : Rxing.BitMatrix) (dX : Nat) (cs : List Rxing.SamplerControl),
        Rxing.sample_grid img dX 0 cs = Except.error (Rxing.Exceptions.notFound "")) ∧
    (Rxing.controlPrecheckOk ⟨1, 1, 1, [0]⟩
          ⟨Rxing.point 0 0, Rxing.point ((1 : Nat) : ℚ) ((1 : Nat) : ℚ),
            ⟨fun p => p, true⟩⟩ = false →
        Rxing.sample_grid ⟨1, 1, 1, [0]⟩ 1 1
            [⟨Rxing.point 0 0, Rxing.point ((1 : Nat) : ℚ) ((1 : Nat) : ℚ),
              ⟨fun p => p, true⟩⟩]
          = Except.error (Rxing.Exceptions.notFound "")) ∧
    (Rxing.controlPrecheckOk ⟨1, 1, 1, [0]⟩
          ⟨Rxing.point 0 0, Rxing.point ((1 : Nat) : ℚ) ((1 : Nat) : ℚ),
            ⟨fun p => p, true⟩⟩ = true →
      ((∀ (x : Nat), x < 1 → ∀ (y : Nat), y < 1 →
          (⟨1, 1, 1, [0]⟩ : Rxing.BitMatrix).is_in
            ((⟨fun p => p, true⟩ : Rxing.PTransform).map
              (Rxing.Point.centered (Rxing.point (x : ℚ) (y : ℚ)))) = true) →
        ∃ (bits : Rxing.BitMatrix) (pts : Rxing.Point × Rxing.Point × Rxing.Point × Rxing.Point),
          Rxing.sample_grid ⟨1, 1, 1, [0]⟩ 1 1
              [⟨Rxing.point 0 0, Rxing.point ((1 : Nat) : ℚ) ((1 : Nat) : ℚ),
                ⟨fun p => p, true⟩⟩]
            = Except.ok (bits, pts) ∧
          bits.width = 1 ∧ bits.height = 1 ∧
          (∀ (x : Nat), x < 1 → ∀ (y : Nat), y < 1 →
            bits.get x y
              = (⟨1, 1, 1, [0]⟩ : Rxing.BitMatrix).get_point
                  ((⟨fun p => p, true⟩ : Rxing.PTransform).map
                    (Rxing.Point.centered (Rxing.point (x : ℚ) (y : ℚ)))))) ∧
      ((∃ (x : Nat), x < 1 ∧ ∃ (y : Nat), y < 1 ∧
          (⟨1, 1, 1, [0]⟩ : Rxing.BitMatrix).is_in
            ((⟨fun p => p, true⟩ : Rxing.PTransform).map
              (Rxing.Point.centered (Rxing.point (x : ℚ) (y : ℚ)))) = false) →
        Rxing.sample_grid ⟨1, 1, 1, [0]⟩ 1 1
            [⟨Rxing.point 0 0, Rxing.point ((1 : Nat) : ℚ) ((1 : Nat) : ℚ),
              ⟨fun p => p, true⟩⟩]
          = Except.error (Rxing.Exceptions.notFound "")))) :=
  ⟨by decide, by norm_num,
    C8_sample_grid_amended ⟨1, 1, 1, [0]⟩ 1 1 ⟨fun p => p, true⟩
      (by decide) (by decide) (by norm_num) (by norm_num)⟩

/-- C8 counterexample to the original claim: with zero output dimensions and
an empty control list no ROI corner maps outside the image and there is no
interior cell at all, yet `sample_grid` fails with NotFound instead of
returning a matrix. -/
theorem C8_sample_grid_counterexample :
    Rxing.sample_grid ⟨1, 1, 1, [0]⟩ 0 0 []
      = Except.error (Rxing.Exceptions.notFound "") := rfl

/-- C9: for a Code-39 result with text "1M8GDM9AXKP042788" the VIN parser
returns the typed VIN result with country code "US" and model year 1989 (and
the full field breakdown); for any result whose format is not Code-39, and
for any Code-39 result whose weighted mod-11 checksum does not match (or
cannot be computed), it returns None rather than an error. -/
theorem C9_vin_result_parse :
    Rxing.VINResultParser.parse Rxing.BarcodeFormat.CODE_39 "1M8GDM9AXKP042788".toList
      = some ⟨"1M8GDM9AXKP042788".toList, "1M8".toList, "GDM9AX".toList,
              "KP042788".toList, "US".toList, "GDM9A".toList, 1989, 'P',
              "042788".toList⟩ ∧
    (∀ (format : Rxing.BarcodeFormat) (text : List Char),
        format ≠ Rxing.BarcodeFormat.CODE_39 →
        Rxing.VINResultParser.parse format text = none) ∧
    (∀ text : List Char,
        (match Rxing.VINResultParser.check_checksum
            (Rxing.VINResultParser.ioqFilter (Rxing.rustTrim text)) with
         | Except.ok b => b
         | Except.error _ => false) = false →
        Rxing.VINResultParser.parse Rxing.BarcodeFormat.CODE_39 text = none) := by
  refine ⟨by decide, ?_, ?_⟩
  · intro format text h
    rw [Rxing.VINResultParser.parse, if_pos h]
  · intro text hcs
    rw [Rxing.VINResultParser.parse, if_neg (by simp)]
    dsimp only
    cases haz : Rxing.VINResultParser.az09_search
        (Rxing.VINResultParser.ioqFilter (Rxing.rustTrim text)) with
    | false =>
        simp
    | true =>
        rw [hcs]
        simp

/-- Witness for C9's conditional parts at a concrete input: a Telepen result
is not Code-39, so the parser returns None on it. -/
theorem C9_vin_result_parse_witness :
    Rxing.BarcodeFormat.TELEPEN ≠ Rxing.BarcodeFormat.CODE_39 ∧
    Rxing.VINResultParser.parse Rxing.BarcodeFormat.TELEPEN [] = none :=
  ⟨by decide, C9_vin_result_parse.2.1 Rxing.BarcodeFormat.TELEPEN [] (by decide)⟩

/-- C1 counterexample to the original claim: with the non-empty format set
{TELEPEN} — a format no reader family serves — `set_ints` leaves the
format-driven list empty and the fallback then enables ALL readers, so the
built list contains e.g. the QR reader although QR_CODE is not in the set,
and a Code-39 symbol could be decoded (by the fallback 1D reader) although
CODE_39 is not in the set. -/
theorem C1_set_ints_counterexample :
    Rxing.MultiFormatReader.set_ints false (some [Rxing.BarcodeFormat.TELEPEN])
      = [Rxing.ReaderKind.oneD, Rxing.ReaderKind.qr, Rxing.ReaderKind.dataMatrix,
         Rxing.ReaderKind.aztec, Rxing.ReaderKind.pdf417, Rxing.ReaderKind.maxiCode] ∧
    Rxing.ReaderKind.qr ∈ Rxing.MultiFormatReader.set_ints false
        (some [Rxing.BarcodeFormat.TELEPEN]) ∧
    Rxing.BarcodeFormat.QR_CODE ∉ [Rxing.BarcodeFormat.TELEPEN] :=
  ⟨by decide, by decide, by decide⟩

/-- C1 (amended): when the PossibleFormats set contains at least one format
some reader family serves, `set_ints` builds exactly the readers of the
requested families (1D when a 1D-family format is listed, and each requested
2D reader); when the set matches no reader family — including the empty set
— or is absent, the fallback enables the full default reader list, so a
Code-39 symbol may then be decoded even though CODE_39 was not listed. -/
theorem C1_set_ints_amended (tryHarder : Bool) (fs : List Rxing.BarcodeFormat) :
    (Rxing.MultiFormatReader.familyHit fs = true →
      ∀ k : Rxing.ReaderKind,
        k ∈ Rxing.MultiFormatReader.set_ints tryHarder (some fs)
          ↔ (k = Rxing.ReaderKind.oneD
                ∧ Rxing.MultiFormatReader.oneDFormats fs = true)
            ∨ (k = Rxing.ReaderKind.qr
                ∧ fs.contains Rxing.BarcodeFormat.QR_CODE = true)
            ∨ (k = Rxing.ReaderKind.dataMatrix
                ∧ fs.contains Rxing.BarcodeFormat.DATA_MATRIX = true)
            ∨ (k = Rxing.ReaderKind.aztec
                ∧ fs.contains Rxing.BarcodeFormat.AZTEC = true)
            ∨ (k = Rxing.ReaderKind.pdf417
                ∧ fs.contains Rxing.BarcodeFormat.PDF_417 = true)
            ∨ (k = Rxing.ReaderKind.maxiCode
                ∧ fs.contains Rxing.BarcodeFormat.MAXICODE = true)) ∧
    (Rxing.MultiFormatReader.familyHit fs = false →
      Rxing.MultiFormatReader.set_ints tryHarder (some fs)
        = Rxing.MultiFormatReader.defaultReaders tryHarder) ∧
    Rxing.MultiFormatReader.set_ints tryHarder none
      = Rxing.MultiFormatReader.defaultReaders tryHarder := by
  refine ⟨?_, ?_, rfl⟩
  · intro hfam k
    have hmem : ∃ k₀, k₀ ∈ Rxing.MultiFormatReader.formatReaders tryHarder fs := by
      rw [Rxing.MultiFormatReader.familyHit] at hfam
      simp only [Bool.or_eq_true] at hfam
      rcases hfam with ((((h | h) | h) | h) | h) | h
      · exact ⟨_, (Rxing.MultiFormatReader.mem_formatReaders _ _ _).mpr
          (Or.inl ⟨rfl, h⟩)⟩
      · exact ⟨_, (Rxing.MultiFormatReader.mem_formatReaders _ _ _).mpr
          (Or.inr (Or.inl ⟨rfl, h⟩))⟩
      · exact ⟨_, (Rxing.MultiFormatReader.mem_formatReaders _ _ _).mpr
          (Or.inr (Or.inr (Or.inl ⟨rfl, h⟩)))⟩
      · exact ⟨_, (Rxing.MultiFormatReader.mem_formatReaders _ _ _).mpr
          (Or.inr (Or.inr (Or.inr (Or.inl ⟨rfl, h⟩))))⟩
      · exact ⟨_, (Rxing.MultiFormatReader.mem_formatReaders _ _ _).mpr
          (Or.inr (Or.inr (Or.inr (Or.inr (Or.inl ⟨rfl, h⟩)))))⟩
      · exact ⟨_, (Rxing.MultiFormatReader.mem_formatReaders _ _ _).mpr
          (Or.inr (Or.inr (Or.inr (Or.inr (Or.inr ⟨rfl, h⟩)))))⟩
    obtain ⟨k₀, hk₀⟩ := hmem
    have hempty : (Rxing.MultiFormatReader.formatReaders tryHarder fs).isEmpty = false := by
      cases hfr : Rxing.MultiFormatReader.formatReaders tryHarder fs with
      | nil =>
          rw [hfr] at hk₀
          exact absurd hk₀ (List.not_mem_nil _)
      | cons a t => rfl
    rw [Rxing.MultiFormatReader.set_ints]
    rw [hempty, if_neg (by simp)]
    exact Rxing.MultiFormatReader.mem_formatReaders tryHarder fs k
  · intro hfam
    have hempty : Rxing.MultiFormatReader.formatReaders tryHarder fs = [] := by
      rw [Rxing.MultiFormatReader.familyHit] at hfam
      simp only [Bool.or_eq_false_iff] at hfam
      obtain ⟨⟨⟨⟨⟨h1, h2⟩, h3⟩, h4⟩, h5⟩, h6⟩ := hfam
      rw [Rxing.MultiFormatReader.formatReaders, h1, h2, h3, h4, h5, h6]
      simp
    rw [Rxing.MultiFormatReader.set_ints]
    rw [hempty]
    rfl

/-- Witness for C1's amended characterization at a concrete input: the set
{QR_CODE} hits a reader family, and the built list holds the QR reader under
the stated membership condition. -/
theorem C1_set_ints_amended_witness :
    Rxing.MultiFormatReader.familyHit [Rxing.BarcodeFormat.QR_CODE] = true ∧
    (Rxing.ReaderKind.qr ∈ Rxing.MultiFormatReader.set_ints false
        (some [Rxing.BarcodeFormat.QR_CODE])
      ↔ (Rxing.ReaderKind.qr = Rxing.ReaderKind.oneD
            ∧ Rxing.MultiFormatReader.oneDFormats [Rxing.BarcodeFormat.QR_CODE] = true)
        ∨ (Rxing.ReaderKind.qr = Rxing.ReaderKind.qr
            ∧ [Rxing.BarcodeFormat.QR_CODE].contains Rxing.BarcodeFormat.QR_CODE = true)
        ∨ (Rxing.ReaderKind.qr = Rxing.ReaderKind.dataMatrix
            ∧ [Rxing.BarcodeFormat.QR_CODE].contains Rxing.BarcodeFormat.DATA_MATRIX = true)
        ∨ (Rxing.ReaderKind.qr = Rxing.ReaderKind.aztec
            ∧ [Rxing.BarcodeFormat.QR_CODE].contains Rxing.BarcodeFormat.AZTEC = true)
        ∨ (Rxing.ReaderKind.qr = Rxing.ReaderKind.pdf417
            ∧ [Rxing.BarcodeFormat.QR_CODE].contains Rxing.BarcodeFormat.PDF_417 = true)
        ∨ (Rxing.ReaderKind.qr = Rxing.ReaderKind.maxiCode
            ∧ [Rxing.BarcodeFormat.QR_CODE].contains Rxing.BarcodeFormat.MAXICODE = true)) :=
  ⟨by decide,
    (C1_set_ints_amended false [Rxing.BarcodeFormat.QR_CODE]).1 (by decide)
      Rxing.ReaderKind.qr⟩

/-- C10: `decode_internal` returns the result of the first reader (in list
order, with the AlsoInverted pass appended) that succeeds; every error an
individual reader returns is discarded and the next reader tried; and when
nothing succeeds — including when the reader list is empty — the caller gets
exactly NotFound(""), never any other error kind. -/
theorem C10_decode_internal_spec {Img R : Type}
    (readers : List (Img → Except Rxing.Exceptions R))
    (alsoInverted : Bool) (flip : Img → Img) (image : Img) :
    (∀ e, Rxing.MultiFormatReader.decode_internal readers alsoInverted flip image
        = Except.error e → e = Rxing.Exceptions.notFound "") ∧
    (∀ v, Rxing.MultiFormatReader.decode_internal readers alsoInverted flip image
        = Except.ok v
      ↔ ((∃ l1 r l2, readers = l1 ++ r :: l2
            ∧ (∀ r' ∈ l1, ∃ e, r' image = Except.error e)
            ∧ r image = Except.ok v)
        ∨ (alsoInverted = true
            ∧ (∀ r ∈ readers, ∃ e, r image = Except.error e)
            ∧ ∃ l1 r l2, readers = l1 ++ r :: l2
                ∧ (∀ r' ∈ l1, ∃ e, r' (flip image) = Except.error e)
                ∧ r (flip image) = Except.ok v))) ∧
    ((∀ r ∈ readers, ∃ e, r image = Except.error e) →
      (alsoInverted = true → ∀ r ∈ readers, ∃ e, r (flip image) = Except.error e) →
      Rxing.MultiFormatReader.decode_internal readers alsoInverted flip image
        = Except.error (Rxing.Exceptions.notFound "")) := by
  cases hre : readers with
  | nil =>
      refine ⟨?_, ?_, ?_⟩
      · intro e he
        have h : Except.error (Rxing.Exceptions.notFound "") = Except.error e := he
        exact (Except.error.inj h).symm
      · intro v
        constructor
        · intro h
          exact absurd h (by simp [Rxing.MultiFormatReader.decode_internal])
        · rintro (⟨l1, r, l2, habs, -, -⟩ | ⟨-, -, l1, r, l2, habs, -, -⟩) <;>
            exact absurd habs (by simp)
      · intro _ _
        rfl
  | cons r0 rest =>
      rw [← hre]
      have hguard : (!readers.isEmpty) = true := by rw [hre]; rfl
      rw [Rxing.MultiFormatReader.decode_internal, if_pos hguard]
      cases htry : Rxing.MultiFormatReader.tryAll readers image with
      | some w =>
          refine ⟨?_, ?_, ?_⟩
          · intro e he
            exact absurd he (by simp)
          · intro v
            constructor
            · intro h
              have hwv : w = v := Except.ok.inj h
              exact Or.inl ((Rxing.MultiFormatReader.tryAll_eq_some image v readers).mp
                (by rw [htry, hwv]))
            · rintro (hfst | ⟨hinv, hall, hsnd⟩)
              · have h := (Rxing.MultiFormatReader.tryAll_eq_some image v readers).mpr hfst
                rw [htry] at h
                rw [Option.some.inj h]
              · have h := (Rxing.MultiFormatReader.tryAll_eq_none image readers).mpr hall
                rw [htry] at h
                exact absurd h (by simp)
          · intro hall _
            have h := (Rxing.MultiFormatReader.tryAll_eq_none image readers).mpr hall
            rw [htry] at h
            exact absurd h (by simp)
      | none =>
          have hall1 : ∀ r ∈ readers, ∃ e, r image = Except.error e :=
            (Rxing.MultiFormatReader.tryAll_eq_none image readers).mp htry
          cases hinv : alsoInverted with
          | false =>
              rw [if_neg (by simp)]
              refine ⟨?_, ?_, ?_⟩
              · intro e he
                exact (Except.error.inj he).symm
              · intro v
                constructor
                · intro h
                  exact absurd h (by simp)
                · rintro (⟨l1, r, l2, hsplit, herr, hok⟩ | ⟨habs, -, -⟩)
                  · obtain ⟨e, he⟩ := hall1 r (by rw [hsplit]; simp)
                    rw [he] at hok
                    exact absurd hok (by simp)
                  · exact absurd habs (by simp)
              · intro _ _
                rfl
          | true =>
              rw [if_pos rfl]
              cases htry2 : Rxing.MultiFormatReader.tryAll readers (flip image) with
              | some w =>
                  refine ⟨?_, ?_, ?_⟩
                  · intro e he
                    exact absurd he (by simp)
                  · intro v
                    constructor
                    · intro h
                      have hwv : w = v := Except.ok.inj h
                      refine Or.inr ⟨rfl, hall1, ?_⟩
                      exact (Rxing.MultiFormatReader.tryAll_eq_some (flip image) v
                        readers).mp (by rw [htry2, hwv])
                    · rintro (⟨l1, r, l2, hsplit, herr, hok⟩ | ⟨-, -, hsnd⟩)
                      · obtain ⟨e, he⟩ := hall1 r (by rw [hsplit]; simp)
                        rw [he] at hok
                        exact absurd hok (by simp)
                      · have h := (Rxing.MultiFormatReader.tryAll_eq_some (flip image) v
                            readers).mpr hsnd
                        rw [htry2] at h
                        rw [Option.some.inj h]
                  · intro _ hall2
                    have h := (Rxing.MultiFormatReader.tryAll_eq_none (flip image)
                      readers).mpr (hall2 rfl)
                    rw [htry2] at h
                    exact absurd h (by simp)
              | none =>
                  have hall2 : ∀ r ∈ readers, ∃ e, r (flip image) = Except.error e :=
                    (Rxing.MultiFormatReader.tryAll_eq_none (flip image) readers).mp htry2
                  refine ⟨?_, ?_, ?_⟩
                  · intro e he
                    exact (Except.error.inj he).symm
                  · intro v
                    constructor
                    · intro h
                      exact absurd h (by simp)
                    · rintro (⟨l1, r, l2, hsplit, herr, hok⟩ | ⟨-, -, l1, r, l2, hsplit, herr, hok⟩)
                      · obtain ⟨e, he⟩ := hall1 r (by rw [hsplit]; simp)
                        rw [he] at hok
                        exact absurd hok (by simp)
                      · obtain ⟨e, he⟩ := hall2 r (by rw [hsplit]; simp)
                        rw [he] at hok
                        exact absurd hok (by simp)
                  · intro _ _
                    rfl

/-- Witness for C10 at a concrete input: two readers where the first fails
with a Format error and the second succeeds; the dispatcher returns the
second reader's result. -/
theorem C10_decode_internal_spec_witness :
    Rxing.MultiFormatReader.decode_internal
        [fun _ => Except.error (Rxing.Exceptions.format "x"), fun _ => Except.ok 7]
        false (fun u : Unit => u) ()
      = Except.ok 7 :=
  ((C10_decode_internal_spec
      [fun _ => Except.error (Rxing.Exceptions.format "x"), fun _ => Except.ok 7]
      false (fun u : Unit => u) ()).2.1 7).mpr
    (Or.inl ⟨[fun _ => Except.error (Rxing.Exceptions.format "x")], fun _ => Except.ok 7, [],
      rfl,
      by
        intro r' hr'
        rw [List.mem_singleton] at hr'
        subst hr'
        exact ⟨Rxing.Exceptions.format "x", rfl⟩,
      rfl⟩)
